import Mathlib

/-!
# Verification of the geocode-csv geocoding pipeline

A shallow embedding of the core of the `geocode-csv` program (CSV rows,
addresses, the geocoder stack of cache / invalid-record-skipper wrappers,
the Smarty response unpacking, the retry loop and the streaming pipeline),
together with theorems checking the natural-language specification against
the embedded code.

Conventions:
* Rust `StringRecord`s are `List String`.
* Byte strings are `List Nat` (each entry intended `< 256`).
* Fallible Rust code returning `Result` is embedded as `Except`.
* Rust panics (out-of-bounds indexing, failed `assert!`, `slice::chunks(0)`)
  are embedded as a distinguished error constructor `GeoErr.panicked`, kept
  separate from ordinary `GeoErr.err` errors.
-/

namespace GeocodeCsv

/-- Rust `Result` errors vs. panics. `err` models `anyhow::Error` results;
`panicked` models a Rust panic (index out of bounds, assert failure, ...). -/
inductive GeoErr where
  | err (msg : String)
  | panicked (msg : String)
  deriving DecidableEq, Repr

/-- Is this a panic (as opposed to an ordinary error)? -/
def GeoErr.isPanic : GeoErr → Bool
  | .err _ => false
  | .panicked _ => true

/-! ## Address model (`src/addresses.rs`) -/

/-- `Address` from `src/addresses.rs`: a street (always present) plus
optional city, state and zipcode. -/
structure Address where
  street : String
  city : Option String
  state : Option String
  zipcode : Option String
  deriving DecidableEq, Repr

namespace Address

/-- Rust `str::trim`, at the character-list level: drop leading and
trailing whitespace. (Rust trims Unicode `White_Space`; on the ASCII
whitespace characters this agrees with `Char.isWhitespace`.) -/
def rustTrim (s : String) : List Char :=
  ((s.data.dropWhile Char.isWhitespace).reverse.dropWhile
    Char.isWhitespace).reverse

/-- `Address::is_valid`: a valid address has a non-empty street after
trimming whitespace. -/
def isValid (a : Address) : Bool :=
  !(rustTrim a.street).isEmpty

/-- `Address::city_str`: the city or the empty string. -/
def cityStr (a : Address) : String := a.city.getD ""

/-- `Address::state_str`: the state or the empty string. -/
def stateStr (a : Address) : String := a.state.getD ""

/-- `Address::zipcode_str`: the zipcode or the empty string. -/
def zipcodeStr (a : Address) : String := a.zipcode.getD ""

end Address

/-! ## Column key extraction (`ColumnKeyOrKeys::extract_from_record`) -/

/-- `ColumnKeyOrKeys<usize>`: a single column index or a list of indices. -/
inductive ColumnKeyOrKeys where
  | key (k : Nat)
  | keys (ks : List Nat)
  deriving DecidableEq, Repr

/-- Indexing a `csv::StringRecord` by column: `&record[key]` panics when the
index is out of bounds, which we surface as `GeoErr.panicked`. -/
def recordIndex (record : List String) (k : Nat) : Except GeoErr String :=
  match record.get? k with
  | some s => .ok s
  | none => .error (.panicked "index out of bounds")

/-- Rust `str::is_empty`, at the character-list level. -/
def strIsEmpty (s : String) : Bool :=
  s.data.isEmpty

/-- Rust `str::ends_with(&str)`. Byte-level suffix testing of valid UTF-8
strings coincides with character-level suffix testing (UTF-8 is
self-synchronizing), so we model it as a suffix check on character lists. -/
def strEndsWith (s suffix : String) : Bool :=
  suffix.data.isSuffixOf s.data

/-- The loop body of the `Keys` branch of
`ColumnKeyOrKeys::extract_from_record`: starting from an accumulator, append
each column value with a single space, skipping values that are already a
suffix of the accumulator (and appending directly to an empty accumulator). -/
def extractKeysGo (record : List String) (extracted : String) :
    List Nat → Except GeoErr String
  | [] => .ok extracted
  | k :: ks =>
    match recordIndex record k with
    | .error e => .error e
    | .ok s =>
      if strIsEmpty extracted then
        extractKeysGo record s ks
      else if strEndsWith extracted s then
        extractKeysGo record extracted ks
      else
        extractKeysGo record (extracted ++ " " ++ s) ks

/-- `ColumnKeyOrKeys::extract_from_record` from `src/addresses.rs`. -/
def ColumnKeyOrKeys.extractFromRecord (ck : ColumnKeyOrKeys)
    (record : List String) : Except GeoErr String :=
  match ck with
  | .key k => recordIndex record k
  | .keys ks => extractKeysGo record "" ks

/-- The specification's description of multi-key extraction: a left fold
starting from the empty string, appending each value with a single space and
skipping a value that is already a suffix of the accumulator. -/
def extractFoldSpec (vals : List String) : String :=
  vals.foldl
    (fun acc v =>
      if strIsEmpty acc then v
      else if strEndsWith acc v then acc
      else acc ++ " " ++ v)
    ""

/-- `AddressColumnKeys<usize>` from `src/addresses.rs`. -/
structure AddressColumnKeys where
  street : ColumnKeyOrKeys
  city : Option Nat
  state : Option Nat
  zipcode : Option Nat
  deriving DecidableEq, Repr

/-- `AddressColumnKeys::extract_address_from_record`. The optional fields
use direct indexing (`record[c]`), which panics out of bounds. -/
def AddressColumnKeys.extractAddressFromRecord (keys : AddressColumnKeys)
    (record : List String) : Except GeoErr Address := do
  let street ← keys.street.extractFromRecord record
  let city ← match keys.city with
    | some c => (recordIndex record c).map some
    | none => pure none
  let state ← match keys.state with
    | some s => (recordIndex record s).map some
    | none => pure none
  let zipcode ← match keys.zipcode with
    | some z => (recordIndex record z).map some
    | none => pure none
  return { street, city, state, zipcode }

/-! ## The retry loop of `geocode_chunk` (`src/pipeline.rs`)

`geocode_chunk` calls `geocoder.geocode_addresses(&addresses)` in a loop:
on error it sleeps `retry_wait` (initially 2 seconds), doubles `retry_wait`,
and increments a failure counter, retrying while `failures < max_retries`;
once `failures` reaches `max_retries` the last error is returned. The
effectful geocoder call is embedded as an oracle `f : Nat → Except GeoErr α`
giving the outcome of the attempt made after `k` failures. We also record
the list of waits (in seconds) slept between attempts. -/

/-- The body of the retry loop in `geocode_chunk`.
`failures` and `retryWait` mirror the mutable variables of the source. -/
def retryLoopGo (f : Nat → Except GeoErr α) (maxRetries : Nat)
    (failures retryWait : Nat) (waits : List Nat) :
    Except GeoErr α × List Nat :=
  match f failures with
  | .ok a => (.ok a, waits)
  | .error e =>
    if h : failures < maxRetries then
      retryLoopGo f maxRetries (failures + 1) (retryWait * 2)
        (waits ++ [retryWait])
    else
      (.error e, waits)
termination_by maxRetries - failures
decreasing_by omega

/-- The retry loop of `geocode_chunk`, started with zero failures and an
initial wait of 2 seconds. -/
def retryLoop (f : Nat → Except GeoErr α) (maxRetries : Nat) :
    Except GeoErr α × List Nat :=
  retryLoopGo f maxRetries 0 2 []

/-! ## Geocoder interface (`src/geocoders/mod.rs`) -/

/-- `Geocoded`: a list of column values in the order of
`Geocoder::column_names`. -/
structure Geocoded where
  column_values : List String
  deriving DecidableEq, Repr

/-- The `Geocoder` trait, restricted to the data its wrappers consume: tag,
configuration key, column names, and the batch geocoding call (embedded as
a pure function into `Except`). -/
structure MGeocoder where
  tag : String
  configuration_key : String
  column_names : List String
  geocode_addresses : List Address → Except GeoErr (List (Option Geocoded))

/-! ## Invalid-record skipper (`src/geocoders/invalid_record_skipper.rs`) -/

/-- The rebuild loop of `InvalidRecordSkipper::geocode_addresses`:
`result[original_indices[i]] = geocoded` for each returned result.
Indexing `original_indices[i]` panics when the inner geocoder returned more
results than addresses were forwarded, and the index-assignment into
`result` likewise panics out of bounds. -/
def skipperRebuild :
    List Nat → List (Option Geocoded) → List (Option Geocoded) →
      Except GeoErr (List (Option Geocoded))
  | _, [], res => .ok res
  | [], _ :: _, _ => .error (.panicked "index out of bounds")
  | oi :: ois, g :: gs, res =>
    if oi < res.length then
      skipperRebuild ois gs (res.set oi g)
    else
      .error (.panicked "index out of bounds")

/-- `InvalidRecordSkipper::geocode_addresses`: extract the valid addresses
together with their original positions, geocode only those, and re-inflate
a result list of the original length with `none` at every skipped slot. -/
def invalidRecordSkipperGeocode (inner : MGeocoder)
    (addresses : List Address) : Except GeoErr (List (Option Geocoded)) :=
  let pairs := addresses.enum.filter (fun p => p.2.isValid)
  let original_indices := pairs.map Prod.fst
  let valid_addresses := pairs.map Prod.snd
  match inner.geocode_addresses valid_addresses with
  | .error e => .error e
  | .ok geocodeded =>
    skipperRebuild original_indices geocodeded
      (List.replicate addresses.length none)

/-- The `InvalidRecordSkipper` wrapper: tag, configuration key and column
names are passed through to the inner geocoder unchanged. -/
def invalidRecordSkipper (inner : MGeocoder) : MGeocoder :=
  { tag := inner.tag
    configuration_key := inner.configuration_key
    column_names := inner.column_names
    geocode_addresses := invalidRecordSkipperGeocode inner }

/-! ## Byte-level helpers: UTF-8 and SHA-256

`Geocoder::cache_prefix` hashes the geocoder's column names and
configuration key with SHA-256 (`sha2` crate). We embed SHA-256 (FIPS
180-4) as a pure function over byte lists, and Rust's
`str::as_bytes` as UTF-8 encoding of the character list. -/

/-- UTF-8 encoding of a single Unicode code point. -/
def utf8EncodeChar (c : Nat) : List Nat :=
  if c < 0x80 then [c]
  else if c < 0x800 then
    [0xC0 + c / 64, 0x80 + c % 64]
  else if c < 0x10000 then
    [0xE0 + c / 4096, 0x80 + c / 64 % 64, 0x80 + c % 64]
  else
    [0xF0 + c / 262144, 0x80 + c / 4096 % 64, 0x80 + c / 64 % 64,
      0x80 + c % 64]

/-- Rust `str::as_bytes`: the UTF-8 bytes of a string. -/
def strBytes (s : String) : List Nat :=
  s.data.flatMap (fun c => utf8EncodeChar c.toNat)

/-- Truncate to a 32-bit word. -/
def w32 (x : Nat) : Nat := x % 4294967296

/-- Rotate a 32-bit word right by `n` (for `0 < n < 32`). -/
def rotr32 (n x : Nat) : Nat := x / 2 ^ n + x % 2 ^ n * 2 ^ (32 - n)

/-- Logical right shift of a 32-bit word. -/
def shr32 (n x : Nat) : Nat := x / 2 ^ n

/-- SHA-256 `Ch(x,y,z)`. -/
def sha256Ch (x y z : Nat) : Nat :=
  (x &&& y) ^^^ ((4294967295 - x) &&& z)

/-- SHA-256 `Maj(x,y,z)`. -/
def sha256Maj (x y z : Nat) : Nat :=
  (x &&& y) ^^^ (x &&& z) ^^^ (y &&& z)

/-- SHA-256 `Σ₀`. -/
def bigSigma0 (x : Nat) : Nat := rotr32 2 x ^^^ rotr32 13 x ^^^ rotr32 22 x

/-- SHA-256 `Σ₁`. -/
def bigSigma1 (x : Nat) : Nat := rotr32 6 x ^^^ rotr32 11 x ^^^ rotr32 25 x

/-- SHA-256 `σ₀`. -/
def smallSigma0 (x : Nat) : Nat := rotr32 7 x ^^^ rotr32 18 x ^^^ shr32 3 x

/-- SHA-256 `σ₁`. -/
def smallSigma1 (x : Nat) : Nat := rotr32 17 x ^^^ rotr32 19 x ^^^ shr32 10 x

/-- The 64 SHA-256 round constants. -/
def sha256K : List Nat :=
  [1116352408, 1899447441, 3049323471, 3921009573,
   961987163, 1508970993, 2453635748, 2870763221,
   3624381080, 310598401, 607225278, 1426881987,
   1925078388, 2162078206, 2614888103, 3248222580,
   3835390401, 4022224774, 264347078, 604807628,
   770255983, 1249150122, 1555081692, 1996064986,
   2554220882, 2821834349, 2952996808, 3210313671,
   3336571891, 3584528711, 113926993, 338241895,
   666307205, 773529912, 1294757372, 1396182291,
   1695183700, 1986661051, 2177026350, 2456956037,
   2730485921, 2820302411, 3259730800, 3345764771,
   3516065817, 3600352804, 4094571909, 275423344,
   430227734, 506948616, 659060556, 883997877,
   958139571, 1322822218, 1537002063, 1747873779,
   1955562222, 2024104815, 2227730452, 2361852424,
   2428436474, 2756734187, 3204031479, 3329325298]

/-- The SHA-256 initial hash value. -/
def sha256H0 : List Nat :=
  [1779033703, 3144134277, 1013904242, 2773480762,
   1359893119, 2600822924, 528734635, 1541459225]

/-- `n` big-endian bytes of a natural number. -/
def beBytes : Nat → Nat → List Nat
  | 0, _ => []
  | n + 1, v => beBytes n (v / 256) ++ [v % 256]

/-- Group bytes into big-endian 32-bit words. -/
def beWords : List Nat → List Nat
  | b0 :: b1 :: b2 :: b3 :: rest =>
    (((b0 * 256 + b1) * 256 + b2) * 256 + b3) :: beWords rest
  | _ => []

/-- SHA-256 padding: append `0x80`, zeros up to 56 mod 64, and the
bit length as 8 big-endian bytes. -/
def sha256Pad (msg : List Nat) : List Nat :=
  let L := msg.length
  let k := (120 - (L + 1) % 64) % 64
  msg ++ [0x80] ++ List.replicate k 0 ++ beBytes 8 (L * 8)

/-- Extend the 16 message-schedule words to 64 (48 extension steps). -/
def scheduleExt (ws : List Nat) : Nat → List Nat
  | 0 => ws
  | fuel + 1 =>
    let n := ws.length
    scheduleExt
      (ws ++ [w32 (smallSigma1 (ws.getD (n - 2) 0) + ws.getD (n - 7) 0 +
        smallSigma0 (ws.getD (n - 15) 0) + ws.getD (n - 16) 0)])
      fuel

/-- The 64 SHA-256 compression rounds over the state
`[a, b, c, d, e, f, g, h]`. -/
def sha256Rounds (st : List Nat) (kw : List (Nat × Nat)) : List Nat :=
  kw.foldl
    (fun st kw =>
      match st with
      | [a, b, c, d, e, f, g, hh] =>
        let t1 := w32 (hh + bigSigma1 e + sha256Ch e f g + kw.1 + kw.2)
        let t2 := w32 (bigSigma0 a + sha256Maj a b c)
        [w32 (t1 + t2), a, b, c, w32 (d + t1), e, f, g]
      | st => st)
    st

/-- Process one 64-byte block. -/
def sha256Block (h : List Nat) (block : List Nat) : List Nat :=
  let w := scheduleExt (beWords block) 48
  let st := sha256Rounds h (sha256K.zip w)
  (h.zip st).map (fun p => w32 (p.1 + p.2))

/-- Split a padded message into 64-byte blocks. -/
def splitBlocks (l : List Nat) : List (List Nat) :=
  if l.isEmpty then []
  else l.take 64 :: splitBlocks (l.drop 64)
termination_by l.length
decreasing_by
  rw [List.length_drop]
  cases l with
  | nil => simp_all [List.isEmpty]
  | cons x xs => rw [List.length_cons]; omega

/-- SHA-256 of a byte list, as 32 bytes. -/
def sha256 (msg : List Nat) : List Nat :=
  ((splitBlocks (sha256Pad msg)).foldl sha256Block sha256H0).flatMap
    (fun wv => beBytes 4 wv)

/-! ## Cache keys (`src/geocoders/cache/mod.rs`, `src/geocoders/mod.rs`) -/

/-- A lowercase hexadecimal digit. -/
def hexDigit (n : Nat) : Char :=
  if n < 10 then Char.ofNat (48 + n) else Char.ofNat (87 + n)

/-- Rust `format!("{:02x}", b)` for a byte. -/
def hexByte (b : Nat) : String :=
  String.mk [hexDigit (b / 16), hexDigit (b % 16)]

/-- `Geocoder::cache_prefix` (`src/geocoders/mod.rs`): hash each column
name followed by a `0x00` byte, then the configuration key, and keep the
tag plus the first two hash bytes in hex. -/
def cache_prefix (tag : String) (column_names : List String)
    (configuration_key : String) : String :=
  let hash := sha256
    ((column_names.flatMap (fun c => strBytes c ++ [0])) ++
      strBytes configuration_key)
  tag ++ ":" ++ hexByte (hash.getD 0 0) ++ hexByte (hash.getD 1 0)

/-- The character loop of `EscapeColons::fmt`: write a `\` before every
`\` or `:`. -/
def escGo : List Char → List Char
  | [] => []
  | c :: cs =>
    if c == '\\' || c == ':' then '\\' :: c :: escGo cs
    else c :: escGo cs

/-- `EscapeColons` from `src/geocoders/cache/mod.rs`: escape only when the
string contains a `\` or `:`, otherwise pass it through unchanged. -/
def escapeColons (s : String) : String :=
  if s.data.any (fun c => c == '\\' || c == ':') then String.mk (escGo s.data)
  else s

/-- Rust `char::to_ascii_lowercase`. -/
def asciiLowerChar (c : Char) : Char :=
  if 65 ≤ c.toNat ∧ c.toNat ≤ 90 then Char.ofNat (c.toNat + 32) else c

/-- Rust `str::to_ascii_lowercase`. -/
def toAsciiLowercase (s : String) : String :=
  String.mk (s.data.map asciiLowerChar)

/-- `cache_key` from `src/geocoders/cache/mod.rs`:
`"gcsv:{prefix}:{state}:{city}:{zipcode}:{street}"` with colons escaped in
each address field, converted to ASCII lowercase. -/
def cache_key (cachePrefix : String) (addr : Address) : String :=
  toAsciiLowercase
    ("gcsv:" ++ cachePrefix ++ ":" ++ escapeColons addr.stateStr ++ ":" ++
      escapeColons addr.cityStr ++ ":" ++ escapeColons addr.zipcodeStr ++
      ":" ++ escapeColons addr.street)

/-- The specification's escaping rule: every `\` and `:` is escaped by a
preceding `\` (no pass-through case). -/
def escapeSpec (s : String) : String :=
  String.mk (s.data.flatMap
    (fun c => if c == '\\' || c == ':' then ['\\', c] else [c]))

/-- The specification's formula for the cache key, with absent optional
fields contributing the empty string. -/
def cacheKeySpec (cachePrefix : String) (addr : Address) : String :=
  toAsciiLowercase
    ("gcsv:" ++ cachePrefix ++ ":" ++ escapeSpec (addr.state.getD "") ++
      ":" ++ escapeSpec (addr.city.getD "") ++ ":" ++
      escapeSpec (addr.zipcode.getD "") ++ ":" ++ escapeSpec addr.street)

/-- The specification's formula for the cache prefix: the geocoder tag, a
colon, and the lowercase hex of the first 2 bytes of SHA-256 over each
column name followed by a `0x00` byte and then the configuration key. -/
def cachePrefixSpec (tag : String) (column_names : List String)
    (configuration_key : String) : String :=
  let hash := sha256
    ((column_names.flatMap (fun c => strBytes c ++ [0])) ++
      strBytes configuration_key)
  tag ++ ":" ++ hexByte (hash.getD 0 0) ++ hexByte (hash.getD 1 0)

/-! ## Output headers (`src/pipeline.rs` reader, `src/addresses.rs`) -/

/-- `prefix_column_name` from `src/addresses.rs`:
`"{prefix}_{column}"`. -/
def prefix_column_name (pre column : String) : String :=
  pre ++ "_" ++ column

/-- `AddressColumnSpec`: the map from output-column prefixes to address
column keys, embedded as an association list (the `HashMap`'s iteration
order is arbitrary, which is why the source sorts). -/
def AddressColumnSpec : Type :=
  List (String × AddressColumnKeys)

/-- Lexicographic order on character lists by code point. For valid UTF-8
this agrees with Rust's byte-lexicographic order on `&str` (UTF-8 encoding
preserves code-point order). -/
def lexLe : List Char → List Char → Bool
  | [], _ => true
  | _ :: _, [] => false
  | c :: cs, d :: ds =>
    if c.toNat < d.toNat then true
    else if d.toNat < c.toNat then false
    else lexLe cs ds

/-- Rust's `&str` ordering, as a relation on strings. -/
def strLeR (a b : String) : Prop :=
  lexLe a.data b.data = true

instance : DecidableRel strLeR :=
  fun a b => inferInstanceAs (Decidable (lexLe a.data b.data = true))

/-- `AddressColumnSpec::prefixes`: the prefixes, sorted (the source uses
`sort_unstable` on `&str`, i.e. lexicographic byte order; the sorting
algorithm itself is not observable, so we use insertion sort). -/
def specPrefixes (spec : AddressColumnSpec) : List String :=
  (spec.map Prod.fst).insertionSort strLeR

/-- `AddressColumnSpec::prefix_count`. -/
def specPrefixCount (spec : AddressColumnSpec) : Nat :=
  spec.length

/-- The `HashSet` insertion loop of `AddressColumnSpec::duplicate_columns`:
collect every prefixed output column name, failing on a duplicate. -/
def addPrefixedNames (seen : List String) :
    List String → Except String (List String)
  | [] => .ok seen
  | n :: ns =>
    if seen.contains n then .error ("duplicate column name " ++ n)
    else addPrefixedNames (seen ++ [n]) ns

/-- All prefixed output column names, in prefix-major order, with the
duplicate check of `AddressColumnSpec::duplicate_columns`. -/
def outputColumnNames (spec : AddressColumnSpec)
    (column_names : List String) : Except String (List String) :=
  addPrefixedNames []
    ((specPrefixes spec).flatMap
      (fun pre => column_names.map (prefix_column_name pre)))

/-- `AddressColumnSpec::duplicate_columns`: the name and index of every
input header column that collides with a prefixed output column. -/
def duplicateColumns (spec : AddressColumnSpec)
    (column_names : List String) (header : List String) :
    Except String (List (String × Nat)) :=
  match outputColumnNames spec column_names with
  | .error e => .error e
  | .ok names =>
    .ok ((header.enum.filter (fun p => names.contains p.2)).map
      (fun p => (p.2, p.1)))

/-- `OnDuplicateColumns` from `src/pipeline.rs`. -/
inductive OnDuplicateColumns where
  | error
  | replace
  | append
  deriving DecidableEq, Repr

/-- `remove_columns` from `src/pipeline.rs`: drop the values whose flag is
set. -/
def removeColumns (row : List String) (remove_column_flags : List Bool) :
    List String :=
  (row.zip remove_column_flags).filterMap
    (fun p => if p.2 then none else some p.1)

/-- The header phase of `read_csv_from_stdin`: detect duplicate columns,
apply the duplicate-column policy (fail, mark for removal, or keep), strip
marked columns from the input header, and append the prefixed geocoder
columns for each prefix in sorted order. (The resolution of the spec's
column names to indices, which preserves the prefix set, is not modelled
here.) -/
def readerOutHeaders (spec : AddressColumnSpec) (g : MGeocoder)
    (policy : OnDuplicateColumns) (in_headers : List String) :
    Except String (List String) :=
  match duplicateColumns spec g.column_names in_headers with
  | .error e => .error e
  | .ok dups =>
    let duplicate_column_indices := dups.map Prod.snd
    let remove_column_flags :=
      (List.range in_headers.length).map
        (fun i => duplicate_column_indices.contains i)
    match
      (if !duplicate_column_indices.isEmpty then
        match policy with
        | .error =>
          .error "input columns would conflict with geocoding columns"
        | .replace => .ok true
        | .append => .ok false
      else (.ok false : Except String Bool)) with
    | .error e => .error e
    | .ok should_remove_columns =>
      let in_headers' :=
        if should_remove_columns then
          removeColumns in_headers remove_column_flags
        else in_headers
      .ok ((specPrefixes spec).foldl
        (fun hdr pre => hdr ++ g.column_names.map (prefix_column_name pre))
        in_headers')

/-! ## Cache layer (`src/geocoders/cache/mod.rs`)

`Cache::geocode_addresses` looks every address up in a key/value store via
one pipelined GET, forwards the misses to the inner geocoder, and writes the
new results back via one pipelined SET. Cached values are
`[compressor_id] ++ compress(bincode(Option<Vec<String>>))` with the
"none" compressor (`id = b'N'`, identity compression) and bincode's
standard configuration (little-endian, variable-length integers). -/

/-- `Geocoded::contains_null_bytes`. Modelled from the spec: the method is
called in `src/geocoders/cache/mod.rs` but its definition is not under
`src/`; spec invariant 4 reads "A non-`None` `Geocoded.column_values`
contains no NUL bytes; any cached value that does is treated as a cache
miss (legacy-data guard)". -/
def Geocoded.containsNullBytes (g : Geocoded) : Bool :=
  g.column_values.any (fun s => s.data.any (fun c => c.toNat == 0))

/-- `n` little-endian bytes of a natural number. -/
def leBytes : Nat → Nat → List Nat
  | 0, _ => []
  | k + 1, v => v % 256 :: leBytes k (v / 256)

/-- Read a little-endian byte list as a natural number. -/
def leNum : List Nat → Nat
  | [] => 0
  | b :: bs => b + 256 * leNum bs

/-- bincode's variable-length encoding of an unsigned integer: values below
251 are a single byte; larger values get a marker byte (251/252/253/254)
followed by 2, 4, 8 or 16 little-endian bytes. -/
def varintEncode (n : Nat) : List Nat :=
  if n < 251 then [n]
  else if n < 2 ^ 16 then 251 :: leBytes 2 n
  else if n < 2 ^ 32 then 252 :: leBytes 4 n
  else if n < 2 ^ 64 then 253 :: leBytes 8 n
  else 254 :: leBytes 16 n

/-- Decode a bincode variable-length unsigned integer, returning the value
and the remaining bytes. -/
def varintDecode : List Nat → Option (Nat × List Nat)
  | [] => none
  | b :: rest =>
    if b < 251 then some (b, rest)
    else if b = 251 then
      if 2 ≤ rest.length then some (leNum (rest.take 2), rest.drop 2)
      else none
    else if b = 252 then
      if 4 ≤ rest.length then some (leNum (rest.take 4), rest.drop 4)
      else none
    else if b = 253 then
      if 8 ≤ rest.length then some (leNum (rest.take 8), rest.drop 8)
      else none
    else if b = 254 then
      if 16 ≤ rest.length then some (leNum (rest.take 16), rest.drop 16)
      else none
    else none

/-- bincode serialization of a `String`: byte length, then UTF-8 bytes. -/
def encodeString (s : String) : List Nat :=
  varintEncode (strBytes s).length ++ strBytes s

/-- bincode serialization of a `Vec<String>`: length, then the elements. -/
def encodeVecString (vs : List String) : List Nat :=
  varintEncode vs.length ++ vs.flatMap encodeString

/-- bincode serialization of an `Option<Vec<String>>`: a 0 byte for
`None`, a 1 byte followed by the vector for `Some`. -/
def encodeOptVecString : Option (List String) → List Nat
  | none => [0]
  | some vs => 1 :: encodeVecString vs

/-- Decode UTF-8 bytes into characters, rejecting invalid sequences
(stray continuation bytes, overlong forms, surrogates, out-of-range code
points) as Rust's string validation does. -/
def utf8Decode : List Nat → Option (List Char)
  | [] => some []
  | b :: rest =>
    if h : b < 0x80 then
      (utf8Decode rest).map (fun cs => Char.ofNat b :: cs)
    else if 0xC2 ≤ b ∧ b ≤ 0xDF then
      match rest with
      | b1 :: rest2 =>
        if 0x80 ≤ b1 ∧ b1 < 0xC0 then
          (utf8Decode rest2).map
            (fun cs => Char.ofNat ((b - 0xC0) * 64 + (b1 - 0x80)) :: cs)
        else none
      | [] => none
    else if 0xE0 ≤ b ∧ b ≤ 0xEF then
      match rest with
      | b1 :: b2 :: rest2 =>
        let c := (b - 0xE0) * 4096 + (b1 - 0x80) * 64 + (b2 - 0x80)
        if (0x80 ≤ b1 ∧ b1 < 0xC0) ∧ (0x80 ≤ b2 ∧ b2 < 0xC0) ∧
            0x800 ≤ c ∧ ¬(0xD800 ≤ c ∧ c ≤ 0xDFFF) then
          (utf8Decode rest2).map (fun cs => Char.ofNat c :: cs)
        else none
      | _ => none
    else if 0xF0 ≤ b ∧ b ≤ 0xF4 then
      match rest with
      | b1 :: b2 :: b3 :: rest2 =>
        let c := (b - 0xF0) * 262144 + (b1 - 0x80) * 4096 +
          (b2 - 0x80) * 64 + (b3 - 0x80)
        if (0x80 ≤ b1 ∧ b1 < 0xC0) ∧ (0x80 ≤ b2 ∧ b2 < 0xC0) ∧
            (0x80 ≤ b3 ∧ b3 < 0xC0) ∧ 0x10000 ≤ c ∧ c ≤ 0x10FFFF then
          (utf8Decode rest2).map (fun cs => Char.ofNat c :: cs)
        else none
      | _ => none
    else none

/-- Decode a bincode `String`, returning it and the remaining bytes. -/
def decodeString (bs : List Nat) : Option (String × List Nat) :=
  match varintDecode bs with
  | none => none
  | some (len, rest) =>
    if len ≤ rest.length then
      match utf8Decode (rest.take len) with
      | some cs => some (String.mk cs, rest.drop len)
      | none => none
    else none

/-- Decode `n` bincode `String`s. -/
def decodeStrings : Nat → List Nat → Option (List String × List Nat)
  | 0, bs => some ([], bs)
  | n + 1, bs =>
    match decodeString bs with
    | none => none
    | some (s, rest) =>
      match decodeStrings n rest with
      | none => none
      | some (ss, rest') => some (s :: ss, rest')

/-- bincode deserialization of an `Option<Vec<String>>`
(`decode_from_slice` tolerates trailing bytes). -/
def decodeOptVecString (bs : List Nat) : Except String (Option (List String)) :=
  match bs with
  | 0 :: _ => .ok none
  | 1 :: rest =>
    match varintDecode rest with
    | some (n, rest') =>
      match decodeStrings n rest' with
      | some (vs, _) => .ok (some vs)
      | none => .error "could not deserialize cached data"
    | none => .error "could not deserialize cached data"
  | _ => .error "could not deserialize cached data"

/-- `CacheCompressor::id` for the "none" compressor: `b'N'`. -/
def compressorId : Nat := 78

/-- `CacheCompressor::compress` for the "none" compressor: the identity. -/
def compressorCompress (input : List Nat) : List Nat := input

/-- `CacheCompressor::decompress` for the "none" compressor: the
identity. -/
def compressorDecompress (input : List Nat) : List Nat := input

/-- The `KeyValueStore` interface (`src/key_value_stores/mod.rs`): one
pipelined GET over a list of keys (results in insertion order) and one
pipelined SET over key/value pairs, embedded as pure functions. -/
structure KeyValueStore where
  pipelinedGet : List String → Except String (List (Option (List Nat)))
  pipelinedSet : List (String × List Nat) → Except String Unit

/-- The `Cache` struct: compressor (fixed to the "none" compressor), store,
inner geocoder, saved cache prefix, and the two option flags. -/
structure MCache where
  key_value_store : KeyValueStore
  inner : MGeocoder
  inner_cache_prefix : String
  output_keys : Bool
  cache_hits_only : Bool

/-- What the cache-hit branch of the scan loop decides for one slot. -/
inductive SlotAction where
  | hit (g : Geocoded)
  | negative
  | miss
  deriving DecidableEq, Repr

/-- The body of the cache-hit branch of `Cache::geocode_addresses` for a
single cached value: read the compressor id byte (`cache_hit[0]` — a panic
on an empty value), decompress the rest, deserialize an
`Option<Vec<String>>`, and classify the slot: `Some(vs)` of the right arity
without NUL bytes is a hit, `Some(vs)` with a NUL byte is treated as a miss
(legacy-data guard), `None` is a cached negative, and a wrong arity is a
fatal error. `classifyDecoded` is the classification of the deserialized
value. -/
def classifyDecoded (c : MCache) : Option (List String) → Except GeoErr SlotAction
  | some vs =>
    if vs.length ≠ c.inner.column_names.length then
      .error (.err "wrong number of values")
    else if Geocoded.containsNullBytes ⟨vs⟩ then
      .ok .miss
    else
      .ok (.hit ⟨vs⟩)
  | none => .ok .negative

/-- The per-value part of the cache-hit branch: check the compressor id
byte (`cache_hit[0]` — a panic on an empty value), decompress, deserialize
and classify. -/
def processCachedValue (c : MCache) (cacheHit : List Nat) :
    Except GeoErr SlotAction :=
  match cacheHit with
  | [] => .error (.panicked "index out of bounds")
  | b0 :: restBytes =>
    if b0 ≠ compressorId then
      .error (.err "unknown compression format")
    else
      match decodeOptVecString (compressorDecompress restBytes) with
      | .error e => .error (.err e)
      | .ok v => classifyDecoded c v

/-- The scan loop of `Cache::geocode_addresses` over the pipelined-GET
results: record hits into `geocoded` and collect the missed addresses and
their offsets. An absent value is a miss; `addresses[i]` and
`geocoded[i]` mirror Rust's panicking indexing. -/
def cacheScan (c : MCache) (addresses : List Address) :
    List (Option (List Nat)) → Nat → List (Option Geocoded) →
      List Address → List Nat →
      Except GeoErr (List (Option Geocoded) × List Address × List Nat)
  | [], _, geocoded, misses, offsets => .ok (geocoded, misses, offsets)
  | cv :: rest, i, geocoded, misses, offsets =>
    match cv with
    | some bytes =>
      match processCachedValue c bytes with
      | .error e => .error e
      | .ok (.hit g) =>
        if i < geocoded.length then
          cacheScan c addresses rest (i + 1) (geocoded.set i (some g))
            misses offsets
        else
          .error (.panicked "index out of bounds")
      | .ok .negative =>
        cacheScan c addresses rest (i + 1) geocoded misses offsets
      | .ok .miss =>
        match addresses.get? i with
        | some a =>
          cacheScan c addresses rest (i + 1) geocoded (misses ++ [a])
            (offsets ++ [i])
        | none => .error (.panicked "index out of bounds")
    | none =>
      match addresses.get? i with
      | some a =>
        cacheScan c addresses rest (i + 1) geocoded (misses ++ [a])
          (offsets ++ [i])
      | none => .error (.panicked "index out of bounds")

/-- The write-back loop of `Cache::geocode_addresses`: for each miss
offset and inner result, bincode-encode the optional column values,
prepend the compressor id, queue the pipelined SET for `keys[i]`, and
store the result into the output slot. -/
def cacheWriteback (keys : List String) :
    List (Nat × Option Geocoded) → List (Option Geocoded) →
      Except GeoErr (List (String × List Nat) × List (Option Geocoded))
  | [], geocoded => .ok ([], geocoded)
  | (i, retry) :: rest, geocoded =>
    match keys.get? i with
    | none => .error (.panicked "index out of bounds")
    | some key =>
      let value := retry.map (fun r => r.column_values)
      let compressed :=
        compressorId :: compressorCompress (encodeOptVecString value)
      if i < geocoded.length then
        match cacheWriteback keys rest (geocoded.set i retry) with
        | .error e => .error e
        | .ok (sets, geocoded') => .ok ((key, compressed) :: sets, geocoded')
      else
        .error (.panicked "index out of bounds")

/-- The final step of `Cache::geocode_addresses`: when `output_keys` is
set, append each slot's cache key to its column values. -/
def cacheFinish (c : MCache) (keys : List String)
    (geocoded : List (Option Geocoded)) : List (Option Geocoded) :=
  if c.output_keys then
    (geocoded.zip keys).map
      (fun p => p.1.map (fun r => ⟨r.column_values ++ [p.2]⟩))
  else geocoded

/-- `Cache::geocode_addresses`: compute the cache keys, early-return on an
empty batch, issue the pipelined GET, scan the results, geocode the misses
with the inner geocoder (unless `cache_hits_only`), write the new results
back with a pipelined SET (whose failure propagates), and optionally
append the cache keys. -/
def cacheGeocodeAddresses (c : MCache) (addresses : List Address) :
    Except GeoErr (List (Option Geocoded)) :=
  let keys := addresses.map (fun addr => cache_key c.inner_cache_prefix addr)
  let geocoded0 : List (Option Geocoded) :=
    List.replicate addresses.length none
  if keys.isEmpty then .ok geocoded0
  else
    match c.key_value_store.pipelinedGet keys with
    | .error e => .error (.err e)
    | .ok cache_results =>
      match cacheScan c addresses cache_results 0 geocoded0 [] [] with
      | .error e => .error e
      | .ok (geocoded1, cache_misses, cache_miss_offsets) =>
        if !cache_misses.isEmpty && !c.cache_hits_only then
          match c.inner.geocode_addresses cache_misses with
          | .error e => .error e
          | .ok cache_miss_retries =>
            match cacheWriteback keys
                (cache_miss_offsets.zip cache_miss_retries) geocoded1 with
            | .error e => .error e
            | .ok (sets, geocoded2) =>
              match c.key_value_store.pipelinedSet sets with
              | .error e => .error (.err e)
              | .ok _ => .ok (cacheFinish c keys geocoded2)
        else
          .ok (cacheFinish c keys geocoded1)

/-! ## Smarty response unpacking (`src/geocoders/smarty/client.rs`) -/

/-- A Smarty address response: the index of the corresponding request plus
the provider fields. `serde_json::Value` is abstracted as its serialized
text, which none of the unpacking logic inspects. -/
structure AddressResponse where
  input_index : Nat
  fields : String
  deriving DecidableEq, Repr

/-- Modelled from the spec: the module `unpack_vec` is declared in
`src/main.rs` and called from `street_addresses_impl` in
`src/geocoders/smarty/client.rs`, but the file `src/unpack_vec.rs` itself is
not present under `src/`. Following the spec: the adapter "must rebuild an
output list of length `|requests|`, defaulting to `None` for unreferenced
indices and failing if the same index is claimed twice or if any index is
out of range". `out` is the partially filled output list. -/
def unpackVecGo (f : α → Nat) (out : List (Option α)) :
    List α → Except String (List (Option α))
  | [] => .ok out
  | x :: xs =>
    let i := f x
    if out.length ≤ i then
      .error "unpack_vec: index out of range"
    else if (out.getD i none).isSome then
      .error "unpack_vec: index claimed twice"
    else
      unpackVecGo f (out.set i (some x)) xs

/-- Modelled from the spec: `unpack_vec(items, size, f)` rebuilds a list of
`size` slots from `items`, placing each item at index `f item`. -/
def unpack_vec (items : List α) (size : Nat) (f : α → Nat) :
    Except String (List (Option α)) :=
  unpackVecGo f (List.replicate size none) items

/-- The success branch of `street_addresses_impl`:
`unpack_vec(resps, requests.len(), |resp| resp.input_index)`. -/
def streetAddressesUnpack (resps : List AddressResponse)
    (numRequests : Nat) : Except String (List (Option AddressResponse)) :=
  unpack_vec resps numRequests (fun r => r.input_index)

/-! ## The row pipeline (`src/pipeline.rs`) -/

/-- A CSV record (`csv::StringRecord`): a list of field values. -/
abbrev Row := List String

/-- `GEOCODE_SIZE` from `src/pipeline.rs`. -/
def GEOCODE_SIZE : Nat := 72

/-- The chunk-size computation of `read_csv_from_stdin`:
`max(1, GEOCODE_SIZE / max(spec.prefix_count(), 1))`. -/
def chunkSizeOf (spec : AddressColumnSpec) : Nat :=
  max 1 (GEOCODE_SIZE / max (specPrefixCount spec) 1)

/-- A `Message` on the pipeline channels: a chunk of rows, or end of
stream. -/
inductive Message where
  | chunk (rows : List Row)
  | endOfStream
  deriving DecidableEq, Repr

/-- The row loop of `read_csv_from_stdin`: push each row (first put through
`remove_columns` when the replace policy applies — modelled by `tf`) onto a
buffer, emit a chunk whenever the buffer reaches `chunk_size`, and after the
loop send a final chunk if none was sent or unsent rows remain. `buf` and
`sent_chunk` mirror the source's `rows` and `sent_chunk` variables. -/
def readerRowsGo (chunk_size : Nat) (tf : Row → Row) :
    List Row → List Row → Bool → List (List Row)
  | [], buf, sent_chunk =>
    if !sent_chunk || !buf.isEmpty then [buf] else []
  | r :: rest, buf, sent_chunk =>
    let buf' := buf ++ [tf r]
    if chunk_size ≤ buf'.length then
      buf' :: readerRowsGo chunk_size tf rest [] true
    else
      readerRowsGo chunk_size tf rest buf' sent_chunk

/-- The messages `read_csv_from_stdin` sends for a list of input data rows:
the chunks, then `EndOfStream`. -/
def readerMessages (chunk_size : Nat) (tf : Row → Row)
    (in_rows : List Row) : List Message :=
  (readerRowsGo chunk_size tf in_rows [] false).map Message.chunk ++
    [Message.endOfStream]

/-- `Geocoder::add_value_columns_to_row` (trait default in
`src/geocoders/mod.rs`): extend the row with the geocoded column values. -/
def addValueColumnsToRow (g : Geocoded) (row : Row) : Row :=
  row ++ g.column_values

/-- `Geocoder::add_empty_columns_to_row`: extend the row with one empty
string per geocoder column. -/
def addEmptyColumnsToRow (mg : MGeocoder) (row : Row) : Row :=
  row ++ List.replicate mg.column_names.length ""

/-- The per-response branch of the chunk-merge loop of `geocode_chunk`. -/
def addResponseColumns (mg : MGeocoder) : Option Geocoded → Row → Row
  | some g, row => addValueColumnsToRow g row
  | none, row => addEmptyColumnsToRow mg row

/-- `spec.get(prefix)` over the association list. -/
def specGet (spec : AddressColumnSpec) (pre : String) :
    Option AddressColumnKeys :=
  (spec.find? (fun p => p.1 == pre)).map Prod.snd

/-- The inner loop of the address-building phase of `geocode_chunk`:
extract one address per row for a fixed set of column keys; a row error
aborts the chunk. -/
def extractAddressesFor (keys : AddressColumnKeys) :
    List Row → Except GeoErr (List Address)
  | [] => .ok []
  | r :: rs =>
    match keys.extractAddressFromRecord r with
    | .error e => .error e
    | .ok a =>
      match extractAddressesFor keys rs with
      | .error e => .error e
      | .ok rest => .ok (a :: rest)

/-- The address-building phase of `geocode_chunk`: for each prefix of
`spec.prefixes()` (sorted order), one address per row, prefix-major; the
`.expect("should always have prefix")` is a panic. -/
def extractChunkAddresses (spec : AddressColumnSpec) :
    List String → List Row → Except GeoErr (List Address)
  | [], _ => .ok []
  | pre :: pres, rows =>
    match specGet spec pre with
    | none => .error (.panicked "should always have prefix")
    | some keys =>
      match extractAddressesFor keys rows with
      | .error e => .error e
      | .ok as1 =>
        match extractChunkAddresses spec pres rows with
        | .error e => .error e
        | .ok as2 => .ok (as1 ++ as2)

/-- The body of Rust `slice::chunks(k)` once `k > 0`: split into
consecutive groups of `k`, the last possibly shorter. `acc` holds the
group being built, in reverse. -/
def sliceChunksGo (k : Nat) : List α → List α → List (List α)
  | [], acc => if acc.isEmpty then [] else [acc.reverse]
  | x :: xs, acc =>
    let acc' := x :: acc
    if k ≤ acc'.length then acc'.reverse :: sliceChunksGo k xs []
    else sliceChunksGo k xs acc'

/-- Rust `slice::chunks(k)`, which panics when `k = 0` — even on an empty
slice. -/
def sliceChunks (k : Nat) (l : List α) : Except GeoErr (List (List α)) :=
  if k = 0 then .error (.panicked "chunk size must be non-zero")
  else .ok (sliceChunksGo k l [])

/-- The chunk-merge loop of `geocode_chunk`: for each per-prefix group of
geocoding results, `assert_eq!` its length against the row count (a panic
when it differs), then append each response's columns to the corresponding
row. -/
def applyGroups (mg : MGeocoder) :
    List (List (Option Geocoded)) → List Row → Except GeoErr (List Row)
  | [], rows => .ok rows
  | g :: gs, rows =>
    if g.length = rows.length then
      applyGroups mg gs
        ((g.zip rows).map (fun p => addResponseColumns mg p.1 p.2))
    else
      .error (.panicked "assertion failed: geocoded_for_prefix.len()")

/-- `geocode_chunk` (`src/pipeline.rs`): build the addresses
(prefix-major), geocode them with retry, split the results into one group
per prefix with `geocoded.chunks(chunk.rows.len())`, and merge each group
into the rows. -/
def geocodeChunk (mg : MGeocoder) (maxRetries : Nat)
    (spec : AddressColumnSpec) (rows : List Row) :
    Except GeoErr (List Row) :=
  match extractChunkAddresses spec (specPrefixes spec) rows with
  | .error e => .error e
  | .ok addresses =>
    match (retryLoop (fun _ => mg.geocode_addresses addresses)
        maxRetries).1 with
    | .error e => .error e
    | .ok geocoded =>
      match sliceChunks rows.length geocoded with
      | .error e => .error e
      | .ok groups => applyGroups mg groups rows

/-- `geocode_message`: chunks are geocoded, `EndOfStream` passes
through. -/
def geocodeMessage (mg : MGeocoder) (maxRetries : Nat)
    (spec : AddressColumnSpec) : Message → Except GeoErr Message
  | .chunk rows =>
    match geocodeChunk mg maxRetries spec rows with
    | .error e => .error e
    | .ok out => .ok (.chunk out)
  | .endOfStream => .ok .endOfStream

/-- The geocoding stage: `geocode_message` over the stream in order (the
`buffered` combinator preserves order), stopping at the first error. -/
def geocodeStage (mg : MGeocoder) (maxRetries : Nat)
    (spec : AddressColumnSpec) : List Message → Except GeoErr (List Message)
  | [] => .ok []
  | m :: ms =>
    match geocodeMessage mg maxRetries spec m with
    | .error e => .error e
    | .ok m2 =>
      match geocodeStage mg maxRetries spec ms with
      | .error e => .error e
      | .ok ms2 => .ok (m2 :: ms2)

/-- `write_csv_to_stdout`: write the output header before the first
chunk's rows, then every row of every chunk; at `EndOfStream`, `assert!`
that the header was written (a panic otherwise) and stop; report an error
when the stream ends without `EndOfStream`. Returns the records written to
stdout. -/
def writerOutput (out_headers : Row) :
    List Message → Bool → List Row → Except GeoErr (List Row)
  | [], _, _ =>
    .error (.err "did not receive end-of-stream from geocoder")
  | .chunk rows :: rest, headers_written, acc =>
    if headers_written then
      writerOutput out_headers rest true (acc ++ rows)
    else
      writerOutput out_headers rest true (acc ++ [out_headers] ++ rows)
  | .endOfStream :: _, headers_written, acc =>
    if headers_written then .ok acc
    else .error (.panicked "assertion failed: headers_written")

/-- The data-row path of the pipeline (`run_geocoder`): the reader chunks
the input rows and sends them followed by `EndOfStream`; the geocoding
stage maps `geocode_chunk` over the chunks in order; the writer emits the
output header and all rows. An error in a stage fails the run. -/
def runPipelineRows (mg : MGeocoder) (maxRetries : Nat)
    (spec : AddressColumnSpec) (out_headers : Row) (tf : Row → Row)
    (in_rows : List Row) : Except GeoErr (List Row) :=
  match geocodeStage mg maxRetries spec
      (readerMessages (chunkSizeOf spec) tf in_rows) with
  | .error e => .error e
  | .ok msgs => writerOutput out_headers msgs false []

end GeocodeCsv

namespace GeocodeCsv

/-! ### Theorems about extraction -/

/-- `extractKeysGo` computes the same left fold as the specification's rule,
provided every key is in bounds. -/
theorem extractKeysGo_eq_foldSpec (record : List String) (ks : List Nat)
    (acc : String) (h : ∀ k ∈ ks, k < record.length) :
    extractKeysGo record acc ks =
      .ok (ks.foldl
        (fun a k =>
          let v := record.getD k ""
          if strIsEmpty a then v
          else if strEndsWith a v then a
          else a ++ " " ++ v)
        acc) := by
  induction ks generalizing acc with
  | nil => rfl
  | cons k ks ih =>
    have hk : k < record.length := h k (List.mem_cons_self k ks)
    have hks : ∀ k' ∈ ks, k' < record.length := fun k' hk' =>
      h k' (List.mem_cons_of_mem k hk')
    have hrec : recordIndex record k = .ok (record.getD k "") := by
      unfold recordIndex
      rw [show record.get? k = some (record.getD k "") by
        simp [List.get?_eq_getElem?, List.getElem?_eq_getElem hk,
          List.getD_eq_getElem?_getD]]
    simp only [extractKeysGo, hrec, List.foldl_cons]
    by_cases hemp : strIsEmpty acc
    · simp only [hemp, if_true]
      exact ih _ hks
    · simp only [hemp, if_false, Bool.false_eq_true]
      by_cases hend : strEndsWith acc (record.getD k "")
      · simp only [hend, if_true]
        exact ih _ hks
      · simp only [hend, if_false, Bool.false_eq_true]
        exact ih _ hks

/-- C9: for every list of column keys and every row whose indices are all in
bounds, extraction by `ColumnKeyOrKeys::Keys` returns exactly the left fold
described by the specification (append the value to an empty accumulator;
skip the value when the accumulator already ends with it; otherwise append a
single space and the value). -/
theorem keys_extract_is_duplicate_suffix_fold (ks : List Nat)
    (record : List String) (h : ∀ k ∈ ks, k < record.length) :
    (ColumnKeyOrKeys.keys ks).extractFromRecord record =
      .ok (extractFoldSpec (ks.map (fun k => record.getD k ""))) := by
  unfold ColumnKeyOrKeys.extractFromRecord extractFoldSpec
  rw [List.foldl_map]
  exact extractKeysGo_eq_foldSpec record ks "" h

/-- Witness for C9, the specification's own example: keys `[0,1,2]` over the
row `["100", "Main Street #302", "#302"]` extract `"100 Main Street #302"`. -/
theorem keys_extract_is_duplicate_suffix_fold_witness :
    (∀ k ∈ [0, 1, 2], k < (["100", "Main Street #302", "#302"] :
        List String).length) ∧
      (ColumnKeyOrKeys.keys [0, 1, 2]).extractFromRecord
          ["100", "Main Street #302", "#302"] =
        .ok "100 Main Street #302" := by
  refine ⟨by decide, ?_⟩
  rw [keys_extract_is_duplicate_suffix_fold [0, 1, 2]
    ["100", "Main Street #302", "#302"] (by decide)]
  rfl

/-! ### Theorems about the retry loop -/

/-- When every attempt from `failures` up to `maxRetries` fails, the retry
loop returns the error of attempt `maxRetries` and sleeps
`w, 2w, 4w, …` between the remaining attempts. -/
theorem retryLoopGo_all_fail (f : Nat → Except GeoErr α) (es : Nat → GeoErr)
    (maxRetries : Nat) :
    ∀ n failures w waits, maxRetries - failures = n → failures ≤ maxRetries →
      (∀ k, failures ≤ k → k ≤ maxRetries → f k = .error (es k)) →
      retryLoopGo f maxRetries failures w waits =
        (.error (es maxRetries),
          waits ++ (List.range n).map (fun k => w * 2 ^ k)) := by
  intro n
  induction n with
  | zero =>
    intro failures w waits hn hle hfail
    have hfe : failures = maxRetries := by omega
    subst hfe
    unfold retryLoopGo
    rw [hfail failures le_rfl le_rfl]
    simp
  | succ n ih =>
    intro failures w waits hn hle hfail
    have hlt : failures < maxRetries := by omega
    unfold retryLoopGo
    rw [hfail failures le_rfl (by omega)]
    simp only [hlt, dif_pos]
    rw [ih (failures + 1) (w * 2) (waits ++ [w]) (by omega) (by omega)
      (fun k hk1 hk2 => hfail k (by omega) hk2)]
    congr 1
    rw [List.range_succ_eq_map, List.map_cons, List.append_assoc]
    simp only [List.map_map, List.singleton_append, pow_zero, mul_one]
    congr 2
    apply List.map_congr_left
    intro k _
    simp only [Function.comp_apply, pow_succ]
    ring

/-- Sum of the doubling waits: `2 + 4 + … + 2^m = 2^(m+1) - 2`. -/
theorem retry_waits_sum (m : Nat) :
    (((List.range m).map (fun k => 2 * 2 ^ k)).sum) = 2 ^ (m + 1) - 2 := by
  induction m with
  | zero => simp
  | succ m ih =>
    rw [List.range_succ, List.map_append, List.sum_append, ih]
    have h1 : (2 : Nat) ≤ 2 ^ (m + 1) := Nat.one_lt_two_pow_iff.mpr (by omega)
    have h2 : (2 : Nat) ^ (m + 2) = 2 ^ (m + 1) + 2 ^ (m + 1) := by ring
    have h3 : (2 : Nat) * 2 ^ m = 2 ^ (m + 1) := by ring
    simp only [List.map_cons, List.map_nil, List.sum_cons, List.sum_nil]
    omega

/-- C4: if every geocoding attempt fails, the retry loop of `geocode_chunk`
waits 2 seconds before the first retry, doubles the wait after each retry,
performs `maxRetries` retries, and returns the error of the last attempt;
the total wait is `2^(maxRetries+1) - 2` seconds (30 seconds for the default
`max_retries = 4`, whose waits are 2+4+8+16). -/
theorem geocode_chunk_retry_backoff (f : Nat → Except GeoErr α)
    (es : Nat → GeoErr) (maxRetries : Nat)
    (hfail : ∀ k, k ≤ maxRetries → f k = .error (es k)) :
    retryLoop f maxRetries =
        (.error (es maxRetries),
          (List.range maxRetries).map (fun k => 2 * 2 ^ k)) ∧
      ((List.range maxRetries).map (fun k => 2 * 2 ^ k)).sum =
        2 ^ (maxRetries + 1) - 2 := by
  constructor
  · exact retryLoopGo_all_fail f es maxRetries maxRetries 0 2 []
      (by omega) (by omega) (fun k _ hk2 => hfail k hk2)
  · exact retry_waits_sum maxRetries

/-- Witness for C4 at the default `max_retries = 4`: with an always-failing
geocoder the loop waits 2, 4, 8 and 16 seconds (30 seconds in total) and
returns the last error. -/
theorem geocode_chunk_retry_backoff_witness :
    retryLoop (fun _ => (.error (.err "geocoder error") : Except GeoErr Unit))
        4 =
        (.error (.err "geocoder error"), [2, 4, 8, 16]) ∧
      ([2, 4, 8, 16] : List Nat).sum = 30 := by
  have h := geocode_chunk_retry_backoff
    (fun _ => (.error (.err "geocoder error") : Except GeoErr Unit))
    (fun _ => .err "geocoder error") 4 (fun _ _ => rfl)
  constructor
  · rw [h.1]; rfl
  · decide

/-! ### Theorems about Smarty response unpacking -/

/-- `unpackVecGo` succeeds exactly when the claimed indices are pairwise
distinct and every claimed slot is a present, still-empty slot. -/
theorem unpackVecGo_ok_iff (f : α → Nat) :
    ∀ (items : List α) (out : List (Option α)),
      (∃ out', unpackVecGo f out items = .ok out') ↔
        (List.Pairwise (fun a b => f a ≠ f b) items ∧
          ∀ x ∈ items, out[f x]? = some none) := by
  intro items
  induction items with
  | nil =>
    intro out
    simp [unpackVecGo]
  | cons x xs ih =>
    intro out
    simp only [unpackVecGo, List.pairwise_cons, List.mem_cons]
    by_cases hlen : out.length ≤ f x
    · simp only [hlen, if_true]
      constructor
      · rintro ⟨out', hout'⟩; cases hout'
      · rintro ⟨-, hall⟩
        have := hall x (Or.inl rfl)
        rw [List.getElem?_eq_none hlen] at this
        cases this
    · simp only [hlen, if_false]
      have hlt : f x < out.length := by omega
      by_cases hsome : (out.getD (f x) none).isSome
      · simp only [hsome, if_true]
        constructor
        · rintro ⟨out', hout'⟩; cases hout'
        · rintro ⟨-, hall⟩
          have := hall x (Or.inl rfl)
          rw [List.getD_eq_getElem?_getD, this] at hsome
          simp at hsome
      · rw [if_neg hsome]
        rw [ih (out.set (f x) (some x))]
        have hslot : out[f x]? = some none := by
          rw [List.getD_eq_getElem?_getD, List.getElem?_eq_getElem hlt] at hsome
          rw [List.getElem?_eq_getElem hlt]
          simpa using hsome
        constructor
        · rintro ⟨hpw, hall⟩
          have hne : ∀ y ∈ xs, f x ≠ f y := by
            intro y hy hfeq
            have hthis := hall y hy
            rw [← hfeq, List.getElem?_set_self hlt] at hthis
            simp at hthis
          refine ⟨⟨hne, hpw⟩, ?_⟩
          rintro y (rfl | hy)
          · exact hslot
          · have hthis := hall y hy
            rw [List.getElem?_set_ne (hne y hy)] at hthis
            exact hthis
        · rintro ⟨⟨hne, hpw⟩, hall⟩
          refine ⟨hpw, ?_⟩
          intro y hy
          rw [List.getElem?_set_ne (hne y hy)]
          exact hall y (Or.inr hy)

/-- An `unpackVecGo` success is the fold that places every item into the
slot its index claims. -/
theorem unpackVecGo_ok_eq (f : α → Nat) :
    ∀ (items : List α) (out out' : List (Option α)),
      unpackVecGo f out items = .ok out' →
      out' = items.foldl (fun o x => o.set (f x) (some x)) out := by
  intro items
  induction items with
  | nil =>
    intro out out' h
    cases h
    rfl
  | cons x xs ih =>
    intro out out' h
    simp only [unpackVecGo] at h
    by_cases hlen : out.length ≤ f x
    · simp [hlen] at h
    · simp only [hlen, if_false] at h
      by_cases hsome : (out.getD (f x) none).isSome
      · rw [if_pos hsome] at h
        cases h
      · rw [if_neg hsome] at h
        simpa using ih _ _ h

/-- The placement fold does not change the length of the output list. -/
theorem foldl_set_length (f : α → Nat) :
    ∀ (items : List α) (out : List (Option α)),
      (items.foldl (fun o x => o.set (f x) (some x)) out).length =
        out.length := by
  intro items
  induction items with
  | nil => intro out; rfl
  | cons x xs ih =>
    intro out
    rw [List.foldl_cons, ih, List.length_set]

/-- Slot contents of the placement fold: with pairwise-distinct in-range
indices, slot `j` holds the item claiming `j`, or its initial contents when
no item claims `j`. -/
theorem foldl_set_getElem? (f : α → Nat) :
    ∀ (items : List α) (out : List (Option α)),
      List.Pairwise (fun a b => f a ≠ f b) items →
      (∀ x ∈ items, f x < out.length) →
      ∀ j, (items.foldl (fun o x => o.set (f x) (some x)) out)[j]? =
        match items.find? (fun x => f x == j) with
        | some x => some (some x)
        | none => out[j]? := by
  intro items
  induction items with
  | nil =>
    intro out _ _ j
    simp
  | cons x xs ih =>
    intro out hpw hin j
    rw [List.pairwise_cons] at hpw
    simp only [List.foldl_cons, List.find?_cons]
    by_cases hj : f x = j
    · have hfx : (f x == j) = true := by simp [hj]
      have hnone : xs.find? (fun y => f y == j) = none := by
        rw [List.find?_eq_none]
        intro y hy
        simp only [beq_iff_eq]
        intro hyj
        exact hpw.1 y hy (hj.trans hyj.symm)
      rw [ih (out.set (f x) (some x)) hpw.2
        (fun y hy => by
          rw [List.length_set]
          exact hin y (List.mem_cons_of_mem x hy)) j]
      rw [hnone, hfx]
      show (out.set (f x) (some x))[j]? = some (some x)
      rw [← hj]
      exact List.getElem?_set_self (hin x (List.mem_cons_self x xs))
    · have hbeq : (f x == j) = false := by simpa using hj
      simp only [hbeq, if_false, Bool.false_eq_true]
      rw [ih (out.set (f x) (some x)) hpw.2
        (fun y hy => by
          rw [List.length_set]
          exact hin y (List.mem_cons_of_mem x hy)) j]
      cases hfind : xs.find? (fun y => f y == j) with
      | some y => rfl
      | none => exact List.getElem?_set_ne hj

/-- C3: the Smarty adapter's rebuilding of responses by `input_index`.
If the claimed indices are pairwise distinct and all within range, the
adapter returns a list of length `|requests|` whose slot `i` holds exactly
the response claiming `input_index = i` (and `none` when no response claims
`i`); if some index is claimed twice or is out of range, the adapter fails
with an error. -/
theorem smarty_unpack_rebuilds_by_input_index
    (resps : List AddressResponse) (numRequests : Nat) :
    ((List.Pairwise (fun a b => a.input_index ≠ b.input_index) resps ∧
        ∀ r ∈ resps, r.input_index < numRequests) →
      ∃ out, streetAddressesUnpack resps numRequests = .ok out ∧
        out.length = numRequests ∧
        ∀ i < numRequests, out[i]? =
          some (resps.find? (fun r => r.input_index == i))) ∧
    ((¬ List.Pairwise (fun a b => a.input_index ≠ b.input_index) resps ∨
        ∃ r ∈ resps, numRequests ≤ r.input_index) →
      ∃ msg, streetAddressesUnpack resps numRequests = .error msg) := by
  have hrepl : ∀ (i : Nat), i < numRequests →
      (List.replicate numRequests (none : Option AddressResponse))[i]?
        = some none := by
    intro i hi
    rw [List.getElem?_eq_getElem (by simpa using hi)]
    simp
  constructor
  · rintro ⟨hpw, hin⟩
    obtain ⟨out, hout⟩ :=
      (unpackVecGo_ok_iff (fun r => r.input_index) resps
        (List.replicate numRequests none)).mpr
        ⟨hpw, fun r hr => hrepl _ (hin r hr)⟩
    refine ⟨out, hout, ?_, ?_⟩
    · have := unpackVecGo_ok_eq (fun r => r.input_index) resps _ _ hout
      subst this
      rw [foldl_set_length]
      simp
    · intro i hi
      have := unpackVecGo_ok_eq (fun r => r.input_index) resps _ _ hout
      subst this
      rw [foldl_set_getElem? (fun r => r.input_index) resps _ hpw
        (fun r hr => by simpa using hin r hr) i]
      cases hfind : resps.find? (fun r => r.input_index == i) with
      | some r => rfl
      | none => rw [hrepl i hi]
  · intro hbad
    cases hres : streetAddressesUnpack resps numRequests with
    | error msg => exact ⟨msg, rfl⟩
    | ok out =>
      exfalso
      have hres' : unpackVecGo (fun r : AddressResponse => r.input_index)
          (List.replicate numRequests none) resps = .ok out := hres
      have hok := (unpackVecGo_ok_iff (fun r => r.input_index) resps
        (List.replicate numRequests none)).mp ⟨out, hres'⟩
      rcases hbad with hdup | ⟨r, hr, hge⟩
      · exact hdup hok.1
      · have := hok.2 r hr
        rw [List.getElem?_eq_none (by simpa using hge)] at this
        cases this

/-- Witness for C3: two responses arriving out of order (`input_index` 1
then 0) are slotted back into request order. -/
theorem smarty_unpack_rebuilds_by_input_index_witness :
    ∃ out, streetAddressesUnpack [⟨1, "B"⟩, ⟨0, "A"⟩] 2 = .ok out ∧
      out.length = 2 ∧
      ∀ i < 2, out[i]? =
        some (([⟨1, "B"⟩, ⟨0, "A"⟩] :
          List AddressResponse).find? (fun r => r.input_index == i)) :=
  (smarty_unpack_rebuilds_by_input_index [⟨1, "B"⟩, ⟨0, "A"⟩] 2).1
    ⟨by constructor
        · intro y hy
          simp only [List.mem_singleton] at hy
          subst hy
          decide
        · simp,
      by decide⟩

/-! ### Theorems about cache keys -/

/-- The escaping loop of `EscapeColons::fmt` emits, for every character,
either the character alone or a backslash followed by it. -/
theorem escGo_eq_flatMap (cs : List Char) :
    escGo cs =
      cs.flatMap (fun c => if c == '\\' || c == ':' then ['\\', c] else [c]) := by
  induction cs with
  | nil => rfl
  | cons c cs ih =>
    rw [List.flatMap_cons]
    by_cases hc : (c == '\\' || c == ':') = true
    · rw [escGo, if_pos hc, if_pos hc, ih]
      rfl
    · rw [escGo, if_neg hc, if_neg hc, ih]
      rfl

/-- A string without `\` or `:` is unchanged by the specification's
escaping rule. -/
theorem flatMap_escape_id (cs : List Char)
    (h : ∀ c ∈ cs, (c == '\\' || c == ':') = false) :
    cs.flatMap (fun c => if c == '\\' || c == ':' then ['\\', c] else [c]) =
      cs := by
  induction cs with
  | nil => rfl
  | cons c cs ih =>
    rw [List.flatMap_cons, if_neg (by simp [h c (List.mem_cons_self c cs)]),
      ih (fun c' hc' => h c' (List.mem_cons_of_mem c hc'))]
    rfl

/-- `EscapeColons` (which escapes only when the string contains `\` or `:`)
agrees with the specification's unconditional escaping rule. -/
theorem escapeColons_eq_escapeSpec (s : String) :
    escapeColons s = escapeSpec s := by
  unfold escapeColons escapeSpec
  by_cases hany : s.data.any (fun c => c == '\\' || c == ':')
  · rw [if_pos hany, escGo_eq_flatMap]
  · rw [if_neg hany]
    have hall : ∀ c ∈ s.data, (c == '\\' || c == ':') = false := by
      intro c hc
      cases hcc : (c == '\\' || c == ':') with
      | false => rfl
      | true => exact absurd (List.any_eq_true.mpr ⟨c, hc, hcc⟩) hany
    rw [flatMap_escape_id s.data hall]

/-- C5: the cache key built by `cache_key` over the prefix built by
`Geocoder::cache_prefix` equals the specification's formula: the string
`"gcsv:{cache_prefix}:{state}:{city}:{zipcode}:{street}"` converted to
ASCII lowercase, with every `\` and `:` of the four address fields escaped
by a preceding `\` (absent fields contributing the empty string), and with
`cache_prefix = "{tag}:" ++` the lowercase hex of the first 2 bytes of
SHA-256 over each column name followed by a `0x00` byte and then the
configuration key. Both sides are pure functions of these inputs, so the
key is deterministic across runs. -/
theorem cache_key_matches_spec (tag : String) (cols : List String)
    (confKey : String) (addr : Address) :
    cache_key ( cache_prefix tag cols confKey) addr =
        cacheKeySpec (cachePrefixSpec tag cols confKey) addr ∧
      cache_prefix tag cols confKey = cachePrefixSpec tag cols confKey := by
  constructor
  · unfold cache_key cacheKeySpec
    rw [escapeColons_eq_escapeSpec, escapeColons_eq_escapeSpec,
      escapeColons_eq_escapeSpec, escapeColons_eq_escapeSpec]
    rfl
  · rfl

/-! ### Theorems about output headers -/

/-- Two 32-bit words with equal numeric values are equal. -/
theorem uint32_eq_of_toNat_eq (a b : UInt32) (h : a.toNat = b.toNat) :
    a = b := by
  cases a
  cases b
  simp only [UInt32.toNat] at h
  congr 1
  exact BitVec.eq_of_toNat_eq h

/-- Two characters with equal code points are equal. -/
theorem char_eq_of_toNat_eq (a b : Char) (h : a.toNat = b.toNat) : a = b :=
  Char.ext (uint32_eq_of_toNat_eq _ _ h)

/-- `lexLe` is total. -/
theorem lexLe_total : ∀ (as bs : List Char),
    lexLe as bs = true ∨ lexLe bs as = true := by
  intro as
  induction as with
  | nil => intro bs; left; rfl
  | cons c cs ih =>
    intro bs
    cases bs with
    | nil => right; rfl
    | cons d ds =>
      by_cases h1 : c.toNat < d.toNat
      · left; simp [lexLe, h1]
      · by_cases h2 : d.toNat < c.toNat
        · right; simp [lexLe, h2]
        · rcases ih ds with h | h
          · left; simp [lexLe, h1, h2, h]
          · right; simp [lexLe, h1, h2, h]

/-- `lexLe` is transitive. -/
theorem lexLe_trans : ∀ (as bs cs : List Char),
    lexLe as bs = true → lexLe bs cs = true → lexLe as cs = true := by
  intro as
  induction as with
  | nil => intro bs cs _ _; rfl
  | cons x xs ih =>
    intro bs cs hab hbc
    cases bs with
    | nil => simp [lexLe] at hab
    | cons y ys =>
      cases cs with
      | nil => simp [lexLe] at hbc
      | cons z zs =>
        simp only [lexLe] at hab hbc ⊢
        by_cases hxy : x.toNat < y.toNat
        · by_cases hyz : y.toNat < z.toNat
          · rw [if_pos (by omega : x.toNat < z.toNat)]
          · by_cases hzy : z.toNat < y.toNat
            · rw [if_neg hyz, if_pos hzy] at hbc
              cases hbc
            · rw [if_pos (by omega : x.toNat < z.toNat)]
        · by_cases hyx : y.toNat < x.toNat
          · rw [if_neg hxy, if_pos hyx] at hab
            cases hab
          · by_cases hyz : y.toNat < z.toNat
            · rw [if_pos (by omega : x.toNat < z.toNat)]
            · by_cases hzy : z.toNat < y.toNat
              · rw [if_neg hyz, if_pos hzy] at hbc
                cases hbc
              · rw [if_neg hxy, if_neg hyx] at hab
                rw [if_neg hyz, if_neg (by omega)] at hbc
                rw [if_neg (by omega), if_neg (by omega)]
                exact ih ys zs hab hbc

/-- `lexLe` is antisymmetric. -/
theorem lexLe_antisymm : ∀ (as bs : List Char),
    lexLe as bs = true → lexLe bs as = true → as = bs := by
  intro as
  induction as with
  | nil =>
    intro bs _ hba
    cases bs with
    | nil => rfl
    | cons d ds => simp [lexLe] at hba
  | cons c cs ih =>
    intro bs hab hba
    cases bs with
    | nil => simp [lexLe] at hab
    | cons d ds =>
      simp only [lexLe] at hab hba
      by_cases h1 : c.toNat < d.toNat
      · rw [if_neg (by omega), if_pos h1] at hba
        cases hba
      · by_cases h2 : d.toNat < c.toNat
        · rw [if_neg h1, if_pos h2] at hab
          cases hab
        · rw [if_neg h1, if_neg h2] at hab
          rw [if_neg h2, if_neg h1] at hba
          rw [char_eq_of_toNat_eq c d (by omega), ih ds hab hba]

instance : IsTotal String strLeR :=
  ⟨fun a b => lexLe_total a.data b.data⟩

instance : IsTrans String strLeR :=
  ⟨fun a b c => lexLe_trans a.data b.data c.data⟩

instance : IsAntisymm String strLeR :=
  ⟨fun a b hab hba => String.ext (lexLe_antisymm a.data b.data hab hba)⟩

/-- On success, the duplicate-checking insertion loop returns exactly the
names it was given. -/
theorem addPrefixedNames_ok :
    ∀ (xs seen res : List String), addPrefixedNames seen xs = .ok res →
      res = seen ++ xs := by
  intro xs
  induction xs with
  | nil =>
    intro seen res h
    cases h
    simp
  | cons n ns ih =>
    intro seen res h
    simp only [addPrefixedNames] at h
    by_cases hc : seen.contains n
    · rw [if_pos hc] at h
      exact Except.noConfusion h
    · rw [if_neg hc] at h
      rw [ih _ _ h, List.append_assoc]
      rfl

/-- The header-extension loop is an append of the concatenated prefixed
names. -/
theorem foldl_append_flatMap {α β : Type _} (f : α → List β) :
    ∀ (ps : List α) (init : List β),
      ps.foldl (fun h p => h ++ f p) init = init ++ ps.flatMap f := by
  intro ps
  induction ps with
  | nil => intro init; simp
  | cons p ps ih =>
    intro init
    rw [List.foldl_cons, ih, List.flatMap_cons, List.append_assoc]

/-- The duplicate-column indices are exactly the positions of header
columns that collide with a prefixed output column. -/
theorem mem_dupIndices_iff (names l : List String) (i : Nat) :
    i ∈ (l.enum.filter (fun p => names.contains p.2)).map Prod.fst ↔
      ∃ h : i < l.length, names.contains l[i] = true := by
  constructor
  · intro hi
    obtain ⟨p, hp, rfl⟩ := List.mem_map.mp hi
    obtain ⟨hpe, hpc⟩ := List.mem_filter.mp hp
    have := (List.mk_mem_enumFrom_iff_le_and_getElem?_sub.mp
      (show (p.1, p.2) ∈ l.enumFrom 0 from hpe)).2
    simp only [Nat.sub_zero] at this
    obtain ⟨hlt, hval⟩ := List.getElem?_eq_some_iff.mp this
    exact ⟨hlt, by rwa [hval]⟩
  · rintro ⟨h, hc⟩
    refine List.mem_map.mpr ⟨(i, l[i]), List.mem_filter.mpr ⟨?_, hc⟩, rfl⟩
    refine List.mk_mem_enumFrom_iff_le_and_getElem?_sub.mpr
      ⟨Nat.zero_le i, ?_⟩
    simp [List.getElem?_eq_getElem h]

/-- Removing columns by index flags that test a predicate on the column's
own name is a filter by that predicate. -/
theorem removeColumns_eq_filter (P : String → Bool) :
    ∀ (l : List String) (flags : List Bool), flags.length = l.length →
      (∀ i, (h : i < l.length) → (h2 : i < flags.length) →
        flags[i] = P l[i]) →
      removeColumns l flags = l.filter (fun c => !(P c)) := by
  intro l
  induction l with
  | nil =>
    intro flags _ _
    rfl
  | cons c l ih =>
    intro flags hlen hf
    cases flags with
    | nil => cases hlen
    | cons f fs =>
      have hf0 : f = P c := hf 0 (by simp) (by simp)
      simp only [removeColumns, List.zip_cons_cons, List.filterMap_cons,
        List.filter_cons]
      rw [hf0]
      by_cases hp : P c
      · rw [hp]
        simp only [if_true, Bool.not_true, if_false, Bool.false_eq_true]
        exact ih fs (by simpa using hlen)
          (fun i h h2 => hf (i + 1) (by simp only [List.length_cons]; omega)
            (by simp only [List.length_cons]; omega))
      · simp only [Bool.not_eq_true] at hp
        rw [hp]
        simp only [if_false, Bool.not_false, if_true, Bool.false_eq_true]
        rw [← ih fs (by simpa using hlen)
          (fun i h h2 => hf (i + 1) (by simp only [List.length_cons]; omega)
            (by simp only [List.length_cons]; omega))]
        rfl

/-- C7: on success, the output header equals the input headers — with the
columns whose names collide with prefixed output columns removed when the
`replace` policy applies — followed by, for each spec prefix in
lexicographically sorted order, the geocoder's column names prefixed with
`"{prefix}_"`; moreover the prefix order is sorted and depends only on the
set of prefixes, so it is the same on every run regardless of hash-map
iteration order. -/
theorem output_header_order (spec : AddressColumnSpec) (g : MGeocoder)
    (policy : OnDuplicateColumns) (in_headers out : List String)
    (h : readerOutHeaders spec g policy in_headers = .ok out) :
    (out =
      (if policy = .replace then
        in_headers.filter (fun c =>
          !(((specPrefixes spec).flatMap
            (fun pre => g.column_names.map (prefix_column_name pre))).contains
            c))
      else in_headers) ++
      (specPrefixes spec).flatMap
        (fun pre => g.column_names.map (prefix_column_name pre))) ∧
    List.Sorted strLeR (specPrefixes spec) ∧
    (∀ spec2 : AddressColumnSpec,
      (spec.map Prod.fst).Perm (spec2.map Prod.fst) →
      specPrefixes spec = specPrefixes spec2) := by
  refine ⟨?_, List.sorted_insertionSort _ _, ?_⟩
  · set newCols := (specPrefixes spec).flatMap
      (fun pre => g.column_names.map (prefix_column_name pre)) with hnc
    simp only [readerOutHeaders] at h
    cases hdup : duplicateColumns spec g.column_names in_headers with
    | error e =>
      rw [hdup] at h
      exact Except.noConfusion h
    | ok dups =>
      simp only [hdup] at h
      have hnames : ∃ names,
          outputColumnNames spec g.column_names = .ok names ∧
          names = newCols := by
        simp only [duplicateColumns] at hdup
        cases hout : outputColumnNames spec g.column_names with
        | error e =>
          rw [hout] at hdup
          exact Except.noConfusion hdup
        | ok names =>
          exact ⟨names, rfl, by simpa using addPrefixedNames_ok _ [] names hout⟩
      obtain ⟨names, hnamesEq, rfl⟩ := hnames
      have hdups : dups =
          (in_headers.enum.filter (fun p => newCols.contains p.2)).map
            (fun p => (p.2, p.1)) := by
        simp only [duplicateColumns, hnamesEq] at hdup
        exact (Except.ok.inj hdup).symm
      have hidx : dups.map Prod.snd =
          (in_headers.enum.filter (fun p => newCols.contains p.2)).map
            Prod.fst := by
        rw [hdups, List.map_map]
        rfl
      have hflags : ∀ i, (h1 : i < in_headers.length) →
          (h2 : i < ((List.range in_headers.length).map
            (fun i => (dups.map Prod.snd).contains i)).length) →
          ((List.range in_headers.length).map
            (fun i => (dups.map Prod.snd).contains i))[i] =
            newCols.contains in_headers[i] := by
        intro i h1 h2
        rw [List.getElem_map, List.getElem_range]
        rw [Bool.eq_iff_iff]
        constructor
        · intro hcon
          have := List.contains_iff_exists_mem_beq .. |>.mp hcon
          obtain ⟨a, ha, hab⟩ := this
          have : i = a := by simpa using hab
          subst this
          rw [hidx] at ha
          obtain ⟨hlt, hc⟩ := (mem_dupIndices_iff newCols in_headers i).mp ha
          exact hc
        · intro hcon
          apply List.contains_iff_exists_mem_beq .. |>.mpr
          refine ⟨i, ?_, by simp⟩
          rw [hidx]
          exact (mem_dupIndices_iff newCols in_headers i).mpr ⟨h1, hcon⟩
      by_cases hemp : ((dups.map Prod.snd).isEmpty : Bool)
      · have hnodup : ∀ c ∈ in_headers, newCols.contains c = false := by
          intro c hc
          obtain ⟨i, hi, hieq⟩ := List.getElem_of_mem hc
          by_contra hcon
          rw [Bool.not_eq_false] at hcon
          have : i ∈ dups.map Prod.snd := by
            rw [hidx]
            exact (mem_dupIndices_iff newCols in_headers i).mpr
              ⟨hi, by rwa [hieq]⟩
          rw [List.isEmpty_iff] at hemp
          rw [hemp] at this
          cases this
        have hfilter : in_headers.filter (fun c => !(newCols.contains c)) =
            in_headers := by
          rw [List.filter_eq_self]
          intro a ha
          rw [hnodup a ha]
          rfl
        rw [hemp] at h
        simp only [Bool.not_true, if_false, Bool.false_eq_true] at h
        rw [← Except.ok.inj h, foldl_append_flatMap]
        cases policy with
        | error => simp
        | replace =>
          rw [if_pos rfl, hfilter]
        | append => simp
      · rw [Bool.not_eq_true] at hemp
        rw [hemp] at h
        simp only [Bool.not_false, if_true] at h
        cases policy with
        | error =>
          exact Except.noConfusion h
        | replace =>
          simp only at h
          rw [← Except.ok.inj h, foldl_append_flatMap, if_pos rfl]
          rw [removeColumns_eq_filter (fun c => newCols.contains c)
            in_headers _ (by simp) hflags]
          simp
        | append =>
          simp only at h
          rw [← Except.ok.inj h, foldl_append_flatMap]
          simp
  · intro spec2 hperm
    unfold specPrefixes
    exact List.eq_of_perm_of_sorted
      ((List.perm_insertionSort _ (spec.map Prod.fst)).trans
        (hperm.trans (List.perm_insertionSort _ (spec2.map Prod.fst)).symm))
      (List.sorted_insertionSort _ _) (List.sorted_insertionSort _ _)

/-- Witness for C7: a two-prefix spec given in reverse order emits `a_`
columns before `b_` columns after the input headers. -/
theorem output_header_order_witness :
    readerOutHeaders
        [("b", ⟨.key 0, none, none, none⟩), ("a", ⟨.key 0, none, none, none⟩)]
        ⟨"sm", "strict:us-standard-cloud", ["x"],
          fun xs => .ok (xs.map (fun _ => none))⟩
        .append ["h1"] = .ok ["h1", "a_x", "b_x"] ∧
      ["h1", "a_x", "b_x"] =
        (["h1"] : List String) ++
          (specPrefixes
            [("b", ⟨.key 0, none, none, none⟩),
              ("a", ⟨.key 0, none, none, none⟩)]).flatMap
            (fun pre => (["x"] : List String).map (prefix_column_name pre)) := by
  refine ⟨rfl, ?_⟩
  have happ := (output_header_order
    [("b", ⟨.key 0, none, none, none⟩), ("a", ⟨.key 0, none, none, none⟩)]
    ⟨"sm", "strict:us-standard-cloud", ["x"],
      fun xs => .ok (xs.map (fun _ => none))⟩
    .append ["h1"] ["h1", "a_x", "b_x"] rfl).1
  simpa using happ

/-! ### Theorems about the cache scan loop -/

/-- Structural facts about a successful cache scan: the output list keeps
its length, slots below the starting index keep their contents, and the
misses and offsets grow by matched blocks of indices in the scanned range
whose addresses they name. -/
theorem cacheScan_props (c : MCache) (addresses : List Address) :
    ∀ (rs : List (Option (List Nat))) (i0 : Nat)
      (g : List (Option Geocoded)) (m : List Address) (o : List Nat)
      (g' : List (Option Geocoded)) (m' : List Address) (o' : List Nat),
      cacheScan c addresses rs i0 g m o = .ok (g', m', o') →
      g'.length = g.length ∧
      (∀ j, j < i0 → g'[j]? = g[j]?) ∧
      ∃ extraO extraM, o' = o ++ extraO ∧ m' = m ++ extraM ∧
        extraO.length = extraM.length ∧
        (∀ x ∈ extraO, i0 ≤ x ∧ x < i0 + rs.length) ∧
        (∀ p ∈ extraO.zip extraM, addresses.get? p.1 = some p.2) := by
  intro rs
  induction rs with
  | nil =>
    intro i0 g m o g' m' o' h
    cases h
    exact ⟨rfl, fun j _ => rfl,
      [], [], by simp, by simp, rfl, by simp, by simp⟩
  | cons cv rest ih =>
    intro i0 g m o g' m' o' h
    have step :
        ∀ (g1 : List (Option Geocoded)) (m1 : List Address) (o1 : List Nat),
          cacheScan c addresses rest (i0 + 1) g1 m1 o1 = .ok (g', m', o') →
          g1.length = g.length →
          (∀ j, j < i0 → g1[j]? = g[j]?) →
          (∃ newO newM, o1 = o ++ newO ∧ m1 = m ++ newM ∧
            newO.length = newM.length ∧
            (∀ x ∈ newO, x = i0) ∧
            (∀ p ∈ newO.zip newM, addresses.get? p.1 = some p.2)) →
          g'.length = g.length ∧
          (∀ j, j < i0 → g'[j]? = g[j]?) ∧
          ∃ extraO extraM, o' = o ++ extraO ∧ m' = m ++ extraM ∧
            extraO.length = extraM.length ∧
            (∀ x ∈ extraO, i0 ≤ x ∧ x < i0 + (cv :: rest).length) ∧
            (∀ p ∈ extraO.zip extraM, addresses.get? p.1 = some p.2) := by
      intro g1 m1 o1 hrec hg1len hg1below ⟨newO, newM, ho1, hm1, hnewlen,
        hnewO, hnewpair⟩
      obtain ⟨hlen, hbelow, extraO, extraM, ho', hm', hexlen, hexO, hexpair⟩ :=
        ih (i0 + 1) g1 m1 o1 g' m' o' hrec
      refine ⟨hlen.trans hg1len, ?_, newO ++ extraO, newM ++ extraM, ?_, ?_,
        ?_, ?_, ?_⟩
      · intro j hj
        exact (hbelow j (by omega)).trans (hg1below j hj)
      · rw [ho', ho1, List.append_assoc]
      · rw [hm', hm1, List.append_assoc]
      · rw [List.length_append, List.length_append, hnewlen, hexlen]
      · intro x hx
        rcases List.mem_append.mp hx with hx | hx
        · have := hnewO x hx
          subst this
          simp only [List.length_cons]
          omega
        · have := hexO x hx
          simp only [List.length_cons]
          omega
      · intro p hp
        rw [List.zip_append hnewlen] at hp
        rcases List.mem_append.mp hp with hp | hp
        · exact hnewpair p hp
        · exact hexpair p hp
    cases cv with
    | some bytes =>
      cases hpv : processCachedValue c bytes with
      | error e =>
        simp only [cacheScan, hpv] at h
        exact Except.noConfusion h
      | ok action =>
        cases action with
        | hit g0 =>
          simp only [cacheScan, hpv] at h
          by_cases hi : i0 < g.length
          · rw [if_pos hi] at h
            refine step (g.set i0 (some g0)) m o h (List.length_set g i0 _)
              (fun j hj => List.getElem?_set_ne (by omega)) ?_
            exact ⟨[], [], by simp, by simp, rfl, by simp, by simp⟩
          · rw [if_neg hi] at h; cases h
        | negative =>
          simp only [cacheScan, hpv] at h
          refine step g m o h rfl (fun _ _ => rfl) ?_
          exact ⟨[], [], by simp, by simp, rfl, by simp, by simp⟩
        | miss =>
          simp only [cacheScan, hpv] at h
          cases ha : addresses.get? i0 with
          | some a =>
            simp only [ha] at h
            refine step g (m ++ [a]) (o ++ [i0]) h rfl (fun _ _ => rfl) ?_
            refine ⟨[i0], [a], rfl, rfl, rfl, by simp, ?_⟩
            intro p hp
            simp only [List.zip_cons_cons, List.zip_nil_right,
              List.mem_singleton] at hp
            subst hp
            exact ha
          | none =>
            simp only [ha] at h
            exact Except.noConfusion h
    | none =>
      simp only [cacheScan] at h
      cases ha : addresses.get? i0 with
      | some a =>
        simp only [ha] at h
        refine step g (m ++ [a]) (o ++ [i0]) h rfl (fun _ _ => rfl) ?_
        refine ⟨[i0], [a], rfl, rfl, rfl, by simp, ?_⟩
        intro p hp
        simp only [List.zip_cons_cons, List.zip_nil_right,
          List.mem_singleton] at hp
        subst hp
        exact ha
      | none =>
        simp only [ha] at h
        exact Except.noConfusion h

/-- Folding index/value assignments does not change the list length. -/
theorem foldl_setp_length {β : Type _} :
    ∀ (prs : List (Nat × β)) (res : List β),
      (prs.foldl (fun r p => r.set p.1 p.2) res).length = res.length := by
  intro prs
  induction prs with
  | nil => intro res; rfl
  | cons p ps ih =>
    intro res
    rw [List.foldl_cons, ih, List.length_set]

/-- Slots not assigned by the fold keep their contents. -/
theorem foldl_setp_getElem?_not_mem {β : Type _} :
    ∀ (prs : List (Nat × β)) (res : List β) (i : Nat),
      (∀ p ∈ prs, p.1 ≠ i) →
      (prs.foldl (fun r p => r.set p.1 p.2) res)[i]? = res[i]? := by
  intro prs
  induction prs with
  | nil => intro res i _; rfl
  | cons p ps ih =>
    intro res i h
    rw [List.foldl_cons,
      ih _ i (fun p' hp' => h p' (List.mem_cons_of_mem p hp')),
      List.getElem?_set_ne (h p (List.mem_cons_self p ps))]

/-- With pairwise-distinct in-range indices, the `j`-th assignment of the
fold is visible in the final list. -/
theorem foldl_setp_getElem?_nth {β : Type _} :
    ∀ (prs : List (Nat × β)) (res : List β),
      (prs.map Prod.fst).Nodup →
      (∀ p ∈ prs, p.1 < res.length) →
      ∀ j, (hj : j < prs.length) →
        (prs.foldl (fun r p => r.set p.1 p.2) res)[prs[j].1]? =
          some (prs[j].2) := by
  intro prs
  induction prs with
  | nil =>
    intro res _ _ j hj
    cases hj
  | cons p ps ih =>
    intro res hnd hin j hj
    rw [List.map_cons, List.nodup_cons] at hnd
    rw [List.foldl_cons]
    cases j with
    | zero =>
      simp only [List.getElem_cons_zero]
      rw [foldl_setp_getElem?_not_mem ps (res.set p.1 p.2) p.1
        (fun p' hp' hpe => hnd.1 (hpe ▸ List.mem_map_of_mem Prod.fst hp'))]
      exact List.getElem?_set_self (hin p (List.mem_cons_self p ps))
    | succ j =>
      simp only [List.getElem_cons_succ]
      exact ih (res.set p.1 p.2) hnd.2
        (fun p' hp' => by
          rw [List.length_set]
          exact hin p' (List.mem_cons_of_mem p hp'))
        j (by simpa using Nat.lt_of_succ_lt_succ hj)

/-- A slot whose cached value classifies as a cached negative keeps its
(initially `none`) output slot and contributes no miss offset. -/
theorem cacheScan_negative_slot (c : MCache) (addresses : List Address) :
    ∀ (rs : List (Option (List Nat))) (i0 : Nat)
      (g : List (Option Geocoded)) (m : List Address) (o : List Nat)
      (g' : List (Option Geocoded)) (m' : List Address) (o' : List Nat)
      (j : Nat) (bytes : List Nat),
      cacheScan c addresses rs i0 g m o = .ok (g', m', o') →
      rs[j]? = some (some bytes) →
      processCachedValue c bytes = .ok .negative →
      g'[i0 + j]? = g[i0 + j]? ∧ ((i0 + j) ∈ o' ↔ (i0 + j) ∈ o) := by
  intro rs
  induction rs with
  | nil =>
    intro i0 g m o g' m' o' j bytes _ hj
    simp at hj
  | cons cv0 rest ih =>
    intro i0 g m o g' m' o' j bytes h hj hneg
    cases j with
    | zero =>
      simp only [List.getElem?_cons_zero, Option.some_inj] at hj
      subst hj
      simp only [cacheScan, hneg] at h
      obtain ⟨-, hbelow, extraO, -, ho', -, -, hexO, -⟩ :=
        cacheScan_props c addresses rest (i0 + 1) g m o g' m' o' h
      refine ⟨by simpa using hbelow i0 (by omega), ?_⟩
      rw [Nat.add_zero, ho', List.mem_append]
      constructor
      · rintro (hin | hin)
        · exact hin
        · exact absurd (hexO i0 hin).1 (by omega)
      · exact Or.inl
    | succ j =>
      have hj' : rest[j]? = some (some bytes) := by simpa using hj
      have istep :
          ∀ (g1 : List (Option Geocoded)) (m1 : List Address)
            (o1 : List Nat),
            cacheScan c addresses rest (i0 + 1) g1 m1 o1 =
              .ok (g', m', o') →
            g1[i0 + (j + 1)]? = g[i0 + (j + 1)]? →
            ((i0 + (j + 1)) ∈ o1 ↔ (i0 + (j + 1)) ∈ o) →
            g'[i0 + (j + 1)]? = g[i0 + (j + 1)]? ∧
              ((i0 + (j + 1)) ∈ o' ↔ (i0 + (j + 1)) ∈ o) := by
        intro g1 m1 o1 hrec hg1 ho1
        have := ih (i0 + 1) g1 m1 o1 g' m' o' j bytes hrec hj' hneg
        have hidx : i0 + 1 + j = i0 + (j + 1) := by omega
        rw [hidx] at this
        exact ⟨this.1.trans hg1, this.2.trans ho1⟩
      cases cv0 with
      | some bytes0 =>
        cases hpv : processCachedValue c bytes0 with
        | error e =>
          simp only [cacheScan, hpv] at h
          exact Except.noConfusion h
        | ok action =>
          cases action with
          | hit g0 =>
            simp only [cacheScan, hpv] at h
            by_cases hi : i0 < g.length
            · rw [if_pos hi] at h
              exact istep _ _ _ h (List.getElem?_set_ne (by omega)) Iff.rfl
            · rw [if_neg hi] at h
              exact Except.noConfusion h
          | negative =>
            simp only [cacheScan, hpv] at h
            exact istep _ _ _ h rfl Iff.rfl
          | miss =>
            simp only [cacheScan, hpv] at h
            cases ha : addresses.get? i0 with
            | some a =>
              simp only [ha] at h
              refine istep _ _ _ h rfl ?_
              rw [List.mem_append, List.mem_singleton]
              constructor
              · rintro (hin | hin)
                · exact hin
                · omega
              · exact Or.inl
            | none =>
              simp only [ha] at h
              exact Except.noConfusion h
      | none =>
        simp only [cacheScan] at h
        cases ha : addresses.get? i0 with
        | some a =>
          simp only [ha] at h
          refine istep _ _ _ h rfl ?_
          rw [List.mem_append, List.mem_singleton]
          constructor
          · rintro (hin | hin)
            · exact hin
            · omega
          · exact Or.inl
        | none =>
          simp only [ha] at h
          exact Except.noConfusion h

/-- A slot that is absent from the store, or whose cached value classifies
as a miss (for example a value with a NUL byte), contributes its index and
its address to the miss offsets and the forwarded batch, at matching
positions. -/
theorem cacheScan_miss_slot (c : MCache) (addresses : List Address) :
    ∀ (rs : List (Option (List Nat))) (i0 : Nat)
      (g : List (Option Geocoded)) (m : List Address) (o : List Nat)
      (g' : List (Option Geocoded)) (m' : List Address) (o' : List Nat)
      (j : Nat) (cv : Option (List Nat)),
      cacheScan c addresses rs i0 g m o = .ok (g', m', o') →
      m.length = o.length →
      rs[j]? = some cv →
      (cv = none ∨ ∃ bytes, cv = some bytes ∧
        processCachedValue c bytes = .ok .miss) →
      ∃ (k : Nat) (a : Address), o'[k]? = some (i0 + j) ∧ m'[k]? = some a ∧
        addresses.get? (i0 + j) = some a := by
  intro rs
  induction rs with
  | nil =>
    intro i0 g m o g' m' o' j cv _ _ hj
    simp at hj
  | cons cv0 rest ih =>
    intro i0 g m o g' m' o' j cv h hmo hj hmiss
    cases j with
    | zero =>
      simp only [List.getElem?_cons_zero, Option.some_inj] at hj
      subst hj
      have hfinish :
          ∀ (a : Address), addresses.get? i0 = some a →
            cacheScan c addresses rest (i0 + 1) g (m ++ [a]) (o ++ [i0]) =
              .ok (g', m', o') →
            ∃ (k : Nat) (a' : Address), o'[k]? = some (i0 + 0) ∧ m'[k]? = some a' ∧
              addresses.get? (i0 + 0) = some a' := by
        intro a ha hrec
        obtain ⟨-, -, extraO, extraM, ho', hm', -, -, -⟩ :=
          cacheScan_props c addresses rest (i0 + 1) g (m ++ [a])
            (o ++ [i0]) g' m' o' hrec
        refine ⟨o.length, a, ?_, ?_, by simpa using ha⟩
        · rw [ho', List.append_assoc, List.getElem?_append_right le_rfl]
          simp
        · rw [hm', List.append_assoc, ← hmo,
            List.getElem?_append_right le_rfl]
          simp
      rcases hmiss with rfl | ⟨bytes, rfl, hpv⟩
      · simp only [cacheScan] at h
        cases ha : addresses.get? i0 with
        | some a =>
          simp only [ha] at h
          exact hfinish a ha h
        | none =>
          simp only [ha] at h
          exact Except.noConfusion h
      · simp only [cacheScan, hpv] at h
        cases ha : addresses.get? i0 with
        | some a =>
          simp only [ha] at h
          exact hfinish a ha h
        | none =>
          simp only [ha] at h
          exact Except.noConfusion h
    | succ j =>
      have hj' : rest[j]? = some cv := by simpa using hj
      have istep :
          ∀ (g1 : List (Option Geocoded)) (m1 : List Address)
            (o1 : List Nat),
            cacheScan c addresses rest (i0 + 1) g1 m1 o1 =
              .ok (g', m', o') →
            m1.length = o1.length →
            ∃ (k : Nat) (a : Address), o'[k]? = some (i0 + (j + 1)) ∧ m'[k]? = some a ∧
              addresses.get? (i0 + (j + 1)) = some a := by
        intro g1 m1 o1 hrec hmo1
        have := ih (i0 + 1) g1 m1 o1 g' m' o' j cv hrec hmo1 hj' hmiss
        have hidx : i0 + 1 + j = i0 + (j + 1) := by omega
        rwa [hidx] at this
      cases cv0 with
      | some bytes0 =>
        cases hpv : processCachedValue c bytes0 with
        | error e =>
          simp only [cacheScan, hpv] at h
          exact Except.noConfusion h
        | ok action =>
          cases action with
          | hit g0 =>
            simp only [cacheScan, hpv] at h
            by_cases hi : i0 < g.length
            · rw [if_pos hi] at h
              exact istep _ _ _ h hmo
            · rw [if_neg hi] at h
              exact Except.noConfusion h
          | negative =>
            simp only [cacheScan, hpv] at h
            exact istep _ _ _ h hmo
          | miss =>
            simp only [cacheScan, hpv] at h
            cases ha : addresses.get? i0 with
            | some a =>
              simp only [ha] at h
              exact istep _ _ _ h (by simp [hmo])
            | none =>
              simp only [ha] at h
              exact Except.noConfusion h
      | none =>
        simp only [cacheScan] at h
        cases ha : addresses.get? i0 with
        | some a =>
          simp only [ha] at h
          exact istep _ _ _ h (by simp [hmo])
        | none =>
          simp only [ha] at h
          exact Except.noConfusion h

/-- A successful write-back emits one pipelined-SET entry per miss — the
slot's key with the compressor id prepended to the encoded result — and
stores each result into its output slot. -/
theorem cacheWriteback_ok_eq (keys : List String) :
    ∀ (prs : List (Nat × Option Geocoded)) (g : List (Option Geocoded))
      (sets : List (String × List Nat)) (g' : List (Option Geocoded)),
      cacheWriteback keys prs g = .ok (sets, g') →
      sets = prs.map (fun p => (keys.getD p.1 "",
        compressorId :: compressorCompress
          (encodeOptVecString (p.2.map (fun r => r.column_values))))) ∧
      g' = prs.foldl (fun r p => r.set p.1 p.2) g := by
  intro prs
  induction prs with
  | nil =>
    intro g sets g' h
    cases h
    exact ⟨rfl, rfl⟩
  | cons p rest ih =>
    intro g sets g' h
    obtain ⟨i, retry⟩ := p
    simp only [cacheWriteback] at h
    cases hk : keys.get? i with
    | none =>
      simp only [hk] at h
      exact Except.noConfusion h
    | some key =>
      simp only [hk] at h
      by_cases hi : i < g.length
      · rw [if_pos hi] at h
        cases hrec : cacheWriteback keys rest (g.set i retry) with
        | error e =>
          simp only [hrec] at h
          exact Except.noConfusion h
        | ok sg =>
          obtain ⟨s', g''⟩ := sg
          simp only [hrec] at h
          obtain ⟨hs, hg⟩ := Prod.mk.injEq .. ▸ Except.ok.inj h
          obtain ⟨ihs, ihg⟩ := ih (g.set i retry) s' g'' hrec
          subst hs hg
          refine ⟨?_, by simpa using ihg⟩
          rw [List.map_cons, ihs]
          have : keys.getD i "" = key := by
            rw [List.getD_eq_getElem?_getD, ← List.get?_eq_getElem?, hk]
            rfl
          rw [this]
      · rw [if_neg hi] at h
        exact Except.noConfusion h

/-- The write-back loop succeeds when every miss offset is in range. -/
theorem cacheWriteback_ok (keys : List String) :
    ∀ (prs : List (Nat × Option Geocoded)) (g : List (Option Geocoded)),
      (∀ p ∈ prs, p.1 < keys.length ∧ p.1 < g.length) →
      ∃ sets g', cacheWriteback keys prs g = .ok (sets, g') := by
  intro prs
  induction prs with
  | nil =>
    intro g _
    exact ⟨[], g, rfl⟩
  | cons p rest ih =>
    intro g hb
    obtain ⟨i, retry⟩ := p
    obtain ⟨hik, hig⟩ := hb (i, retry) (List.mem_cons_self _ _)
    obtain ⟨sets, g', hrec⟩ := ih (g.set i retry)
      (fun q hq => by
        obtain ⟨h1, h2⟩ := hb q (List.mem_cons_of_mem _ hq)
        exact ⟨h1, by simpa using h2⟩)
    have hk : keys.get? i = some (keys.getD i "") := by
      rw [List.get?_eq_getElem?, List.getD_eq_getElem?_getD,
        List.getElem?_eq_getElem hik]
      rfl
    refine ⟨(keys.getD i "",
      compressorId :: compressorCompress
        (encodeOptVecString (retry.map (fun r => r.column_values)))) :: sets,
      g', ?_⟩
    simp only [cacheWriteback, hk]
    rw [if_pos hig]
    simp only [hrec]

/-- Classifying a non-empty cached value never panics: every failure is an
ordinary error. -/
theorem processCachedValue_no_panic (c : MCache) (bytes : List Nat)
    (e : GeoErr) (hne : bytes ≠ [])
    (h : processCachedValue c bytes = .error e) : e.isPanic = false := by
  cases bytes with
  | nil => exact absurd rfl hne
  | cons b0 rest =>
    simp only [processCachedValue] at h
    by_cases hid : b0 ≠ compressorId
    · rw [if_pos hid] at h
      cases h
      rfl
    · rw [if_neg hid] at h
      cases hdec : decodeOptVecString (compressorDecompress rest) with
      | error msg =>
        simp only [hdec] at h
        cases h
        rfl
      | ok v =>
        simp only [hdec] at h
        cases v with
        | none => exact Except.noConfusion h
        | some vs =>
          simp only [classifyDecoded] at h
          by_cases hl : vs.length ≠ c.inner.column_names.length
          · rw [if_pos hl] at h
            cases h
            rfl
          · rw [if_neg hl] at h
            by_cases hnul : Geocoded.containsNullBytes ⟨vs⟩
            · rw [if_pos hnul] at h
              exact Except.noConfusion h
            · rw [if_neg hnul] at h
              exact Except.noConfusion h

/-- The scan loop never panics when every stored value is non-empty and
the result list is no longer than the addresses and output slots: every
failure is an ordinary error. -/
theorem cacheScan_no_panic (c : MCache) (addresses : List Address) :
    ∀ (rs : List (Option (List Nat))) (i0 : Nat)
      (g : List (Option Geocoded)) (m : List Address) (o : List Nat)
      (e : GeoErr),
      (∀ b, some b ∈ rs → b ≠ []) →
      i0 + rs.length ≤ g.length →
      i0 + rs.length ≤ addresses.length →
      cacheScan c addresses rs i0 g m o = .error e →
      e.isPanic = false := by
  intro rs
  induction rs with
  | nil =>
    intro i0 g m o e _ _ _ h
    exact Except.noConfusion h
  | cons cv0 rest ih =>
    intro i0 g m o e hb hg ha h
    have hrest : ∀ b, some b ∈ rest → b ≠ [] :=
      fun b hbm => hb b (List.mem_cons_of_mem _ hbm)
    have hg' : i0 + 1 + rest.length ≤ g.length := by
      simp only [List.length_cons] at hg
      omega
    have ha' : i0 + 1 + rest.length ≤ addresses.length := by
      simp only [List.length_cons] at ha
      omega
    have hi0a : i0 < addresses.length := by
      simp only [List.length_cons] at ha
      omega
    have hgetA : ∃ a, addresses.get? i0 = some a := by
      rw [List.get?_eq_getElem?, List.getElem?_eq_getElem hi0a]
      exact ⟨_, rfl⟩
    cases cv0 with
    | some bytes0 =>
      cases hpv : processCachedValue c bytes0 with
      | error e' =>
        simp only [cacheScan, hpv] at h
        cases h
        exact processCachedValue_no_panic c bytes0 e
          (hb bytes0 (List.mem_cons_self _ _)) hpv
      | ok action =>
        cases action with
        | hit g0 =>
          simp only [cacheScan, hpv] at h
          rw [if_pos (by
            simp only [List.length_cons] at hg
            omega)] at h
          exact ih (i0 + 1) _ m o e hrest (by simpa using hg') ha' h
        | negative =>
          simp only [cacheScan, hpv] at h
          exact ih (i0 + 1) g m o e hrest hg' ha' h
        | miss =>
          simp only [cacheScan, hpv] at h
          obtain ⟨a, haeq⟩ := hgetA
          rw [haeq] at h
          exact ih (i0 + 1) g _ _ e hrest hg' ha' h
    | none =>
      simp only [cacheScan] at h
      obtain ⟨a, haeq⟩ := hgetA
      rw [haeq] at h
      exact ih (i0 + 1) g _ _ e hrest hg' ha' h

/-- Appending cache keys to the hit slots keeps a `none` slot `none`. -/
theorem cacheFinish_none (c : MCache) (keys : List String)
    (g : List (Option Geocoded)) (i : Nat)
    (hg : g[i]? = some none) (hk : i < keys.length) :
    (cacheFinish c keys g)[i]? = some none := by
  unfold cacheFinish
  by_cases ho : c.output_keys
  · rw [if_pos ho]
    have hig : i < g.length := by
      by_contra hcon
      rw [List.getElem?_eq_none_iff.mpr (by omega)] at hg
      exact Option.noConfusion hg
    have hiz : i < (g.zip keys).length := by
      rw [List.length_zip]
      omega
    rw [List.getElem?_map, List.getElem?_eq_getElem hiz, List.getElem_zip]
    have : g[i] = none := by
      rw [List.getElem?_eq_getElem hig] at hg
      exact Option.some_inj.mp hg
    simp [this]
  · rw [if_neg ho]
    exact hg

/-- C2 (amended): when the pipelined SET that writes newly computed
results back to the key-value store fails, `Cache::geocode_addresses`
propagates the failure as an error to the caller; because the function
returns `Err`, the geocodes computed by the inner geocoder for the batch
are discarded rather than returned. -/
theorem cache_set_failure_returns_error (c : MCache)
    (addresses : List Address) (rs : List (Option (List Nat)))
    (g1 : List (Option Geocoded)) (misses : List Address)
    (offsets : List Nat) (retries : List (Option Geocoded))
    (sets : List (String × List Nat)) (g2 : List (Option Geocoded))
    (e : String)
    (hne : addresses ≠ [])
    (hget : c.key_value_store.pipelinedGet
        (addresses.map (fun addr => cache_key c.inner_cache_prefix addr)) =
        .ok rs)
    (hscan : cacheScan c addresses rs 0
        (List.replicate addresses.length none) [] [] =
        .ok (g1, misses, offsets))
    (hmiss : misses ≠ [])
    (hhits : c.cache_hits_only = false)
    (hinner : c.inner.geocode_addresses misses = .ok retries)
    (hwb : cacheWriteback
        (addresses.map (fun addr => cache_key c.inner_cache_prefix addr))
        (offsets.zip retries) g1 = .ok (sets, g2))
    (hset : c.key_value_store.pipelinedSet sets = .error e) :
    cacheGeocodeAddresses c addresses = .error (.err e) := by
  have hkeysne :
      ¬((addresses.map
        (fun addr => cache_key c.inner_cache_prefix addr)).isEmpty = true) := by
    intro hcon
    rw [List.isEmpty_iff, List.map_eq_nil_iff] at hcon
    exact hne hcon
  have hcond : (!misses.isEmpty && !c.cache_hits_only) = true := by
    rw [hhits]
    simp only [Bool.not_false, Bool.and_true, Bool.not_eq_true']
    rw [← Bool.not_eq_true, List.isEmpty_iff]
    exact hmiss
  simp only [cacheGeocodeAddresses]
  rw [if_neg hkeysne]
  simp only [hget, hscan]
  rw [if_pos hcond]
  simp only [hinner, hwb, hset]

/-- Counterexample for C2 as stated: at this concrete input the inner
geocoder computes a result, the pipelined SET fails, and the call returns
an error — so the computed geocodes are not returned to the caller. -/
theorem cache_set_failure_counterexample :
    cacheGeocodeAddresses
        ⟨⟨fun _ => .ok [none], fun _ => .error "kv set failed"⟩,
          ⟨"sm", "strict:us-standard-cloud", ["latitude"],
            fun xs => .ok (xs.map (fun _ => some ⟨["42.44"]⟩))⟩,
          "sm:abcd", false, false⟩
        [⟨"1 main st", none, none, none⟩] =
      .error (.err "kv set failed") := by
  rfl

/-- Witness for the amended C2 at a concrete input, with every hypothesis
of `cache_set_failure_returns_error` discharged by evaluation. -/
theorem cache_set_failure_returns_error_witness :
    cacheGeocodeAddresses
        ⟨⟨fun _ => .ok [none], fun _ => .error "kv write refused"⟩,
          ⟨"sm", "strict:us-standard-cloud", ["latitude"],
            fun xs => .ok (xs.map (fun _ => some ⟨["42.44"]⟩))⟩,
          "sm:abcd", false, false⟩
        [⟨"2 oak ave", none, none, none⟩] =
      .error (.err "kv write refused") := by
  exact cache_set_failure_returns_error
    ⟨⟨fun _ => .ok [none], fun _ => .error "kv write refused"⟩,
      ⟨"sm", "strict:us-standard-cloud", ["latitude"],
        fun xs => .ok (xs.map (fun _ => some ⟨["42.44"]⟩))⟩,
      "sm:abcd", false, false⟩
    [⟨"2 oak ave", none, none, none⟩]
    [none] [none] [⟨"2 oak ave", none, none, none⟩] [0]
    [some ⟨["42.44"]⟩]
    [("gcsv:sm:abcd::::2 oak ave", [78, 1, 1, 5, 52, 50, 46, 52, 52])]
    [some ⟨["42.44"]⟩] "kv write refused"
    (by intro hcon; cases hcon) rfl rfl (by intro hcon; cases hcon) rfl
    rfl rfl rfl

/-- C10: `Cache::geocode_addresses` reads the compressor-id byte of every
cached value by indexing position 0 without a length check, so a store
response containing a zero-length byte string makes it panic (index out of
bounds) instead of returning an ordinary error; conversely, whenever every
stored value is at least one byte long (and the store honors the
one-result-per-key contract, and the inner geocoder does not itself
panic), every failure of the call is an ordinary error, never a panic. -/
theorem cache_empty_value_panics :
    cacheGeocodeAddresses
        ⟨⟨fun _ => .ok [some []], fun _ => .ok ()⟩,
          ⟨"sm", "strict:us-standard-cloud", ["latitude"],
            fun xs => .ok (xs.map (fun _ => none))⟩,
          "sm:abcd", false, false⟩
        [⟨"1 main st", none, none, none⟩] =
      .error (.panicked "index out of bounds") ∧
    ∀ (c : MCache) (addresses : List Address)
      (rs : List (Option (List Nat))),
      c.key_value_store.pipelinedGet
          (addresses.map (fun addr => cache_key c.inner_cache_prefix addr)) =
          .ok rs →
      rs.length = addresses.length →
      (∀ b, some b ∈ rs → b ≠ []) →
      (∀ xs err, c.inner.geocode_addresses xs = .error err →
        err.isPanic = false) →
      ∀ e, cacheGeocodeAddresses c addresses = .error e →
        e.isPanic = false := by
  constructor
  · rfl
  · intro c addresses rs hget hlen hb hinner e h
    simp only [cacheGeocodeAddresses] at h
    by_cases hkeys :
        (addresses.map
          (fun addr => cache_key c.inner_cache_prefix addr)).isEmpty = true
    · rw [if_pos hkeys] at h
      exact Except.noConfusion h
    · rw [if_neg hkeys] at h
      simp only [hget] at h
      cases hscan : cacheScan c addresses rs 0
          (List.replicate addresses.length none) [] [] with
      | error e' =>
        simp only [hscan] at h
        cases h
        exact cacheScan_no_panic c addresses rs 0 _ [] [] e hb
          (by
            rw [List.length_replicate]
            omega)
          (by omega) hscan
      | ok st =>
        obtain ⟨g1, misses, offsets⟩ := st
        simp only [hscan] at h
        obtain ⟨hg1len, -, extraO, -, ho, -, -, hexO, -⟩ :=
          cacheScan_props c addresses rs 0
            (List.replicate addresses.length none) [] [] g1 misses offsets
            hscan
        by_cases hcond : (!misses.isEmpty && !c.cache_hits_only) = true
        · rw [if_pos hcond] at h
          cases hin : c.inner.geocode_addresses misses with
          | error err =>
            simp only [hin] at h
            cases h
            exact hinner misses e hin
          | ok retries =>
            simp only [hin] at h
            obtain ⟨sets0, g20, hwbok⟩ := cacheWriteback_ok
              (addresses.map
                (fun addr => cache_key c.inner_cache_prefix addr))
              (offsets.zip retries) g1
              (fun p hp => by
                have hmem : p.1 ∈ offsets := (List.of_mem_zip hp).1
                rw [ho] at hmem
                simp only [List.nil_append] at hmem
                have := hexO p.1 hmem
                constructor
                · rw [List.length_map]
                  omega
                · rw [hg1len, List.length_replicate]
                  omega)
            simp only [hwbok] at h
            cases hset : c.key_value_store.pipelinedSet sets0 with
            | error es =>
              simp only [hset] at h
              cases h
              rfl
            | ok u =>
              simp only [hset] at h
              exact Except.noConfusion h
        · rw [if_neg hcond] at h
          exact Except.noConfusion h

/-- Witness for the universally quantified half of C10: with a concrete
store whose every value is non-empty (here: a failing SET but a
well-formed GET), the failure the call reports is an ordinary error, not a
panic. -/
theorem cache_empty_value_panics_witness :
    GeoErr.isPanic (.err "kv set failed") = false := by
  exact cache_empty_value_panics.2
    ⟨⟨fun _ => .ok [none], fun _ => .error "kv set failed"⟩,
      ⟨"sm", "strict:us-standard-cloud", ["latitude"],
        fun xs => .ok (xs.map (fun _ => some ⟨["42.44"]⟩))⟩,
      "sm:abcd", false, false⟩
    [⟨"3 elm st", none, none, none⟩] [none] rfl rfl
    (by intro b hbm; simp at hbm)
    (by intro xs err hcon; cases hcon)
    (.err "kv set failed") rfl

/-- C6: in `Cache::geocode_addresses`, a slot whose cached value decodes
to `None` is a cached negative — the output slot is `None` and the slot
contributes no miss offset, so its address is not in the batch forwarded
to the inner geocoder; and a slot whose cached value decodes to `Some vs`
with the correct number of columns but a NUL byte is treated as a cache
miss — its index and address are forwarded to the inner geocoder (at
matching positions), and on the normal path (`cache_hits_only` off) the
inner result for it is queued in the pipelined SET under that slot's key,
with the compressor id prepended to the encoded value. -/
theorem cache_negative_and_nul_cached_values (c : MCache)
    (addresses : List Address) (rs : List (Option (List Nat))) (i : Nat)
    (bytes : List Nat)
    (hget : c.key_value_store.pipelinedGet
        (addresses.map (fun addr => cache_key c.inner_cache_prefix addr)) =
        .ok rs)
    (hlen : rs.length = addresses.length)
    (hres : rs[i]? = some (some bytes))
    (hid : bytes.head? = some compressorId) :
    ((decodeOptVecString (compressorDecompress bytes.tail) = .ok none) →
      (∀ g1 misses offsets,
        cacheScan c addresses rs 0 (List.replicate addresses.length none)
          [] [] = .ok (g1, misses, offsets) →
        i ∉ offsets ∧ g1[i]? = some none) ∧
      (∀ out, cacheGeocodeAddresses c addresses = .ok out →
        out[i]? = some none)) ∧
    (∀ vs,
      decodeOptVecString (compressorDecompress bytes.tail) = .ok (some vs) →
      vs.length = c.inner.column_names.length →
      Geocoded.containsNullBytes ⟨vs⟩ = true →
      ∀ g1 misses offsets,
        cacheScan c addresses rs 0 (List.replicate addresses.length none)
          [] [] = .ok (g1, misses, offsets) →
        (∃ (k : Nat) (a : Address), offsets[k]? = some i ∧
          misses[k]? = some a ∧ addresses.get? i = some a) ∧
        (∀ retries sets g2,
          c.inner.geocode_addresses misses = .ok retries →
          retries.length = misses.length →
          cacheWriteback
            (addresses.map (fun addr => cache_key c.inner_cache_prefix addr))
            (offsets.zip retries) g1 = .ok (sets, g2) →
          ∀ k, offsets[k]? = some i →
            sets[k]? = some
              ((addresses.map
                (fun addr => cache_key c.inner_cache_prefix addr)).getD i "",
                compressorId :: compressorCompress
                  (encodeOptVecString
                    ((retries.getD k none).map
                      (fun r => r.column_values)))))) := by
  have hilt : i < addresses.length := by
    have : i < rs.length := by
      by_contra hcon
      rw [List.getElem?_eq_none_iff.mpr (by omega)] at hres
      exact Option.noConfusion hres
    omega
  obtain ⟨b0, tail, rfl⟩ : ∃ b0 tail, bytes = b0 :: tail := by
    cases bytes with
    | nil => cases hid
    | cons b0 tail => exact ⟨b0, tail, rfl⟩
  have hb0 : b0 = compressorId := by
    simpa using hid
  subst hb0
  constructor
  · intro hdec
    have hpv : processCachedValue c (compressorId :: tail) =
        .ok .negative := by
      simp only [processCachedValue, List.tail_cons] at *
      rw [if_neg (by simp), hdec]
      rfl
    have hscanfacts : ∀ g1 misses offsets,
        cacheScan c addresses rs 0 (List.replicate addresses.length none)
          [] [] = .ok (g1, misses, offsets) →
        i ∉ offsets ∧ g1[i]? = some none := by
      intro g1 misses offsets hscan
      obtain ⟨hslot, hmem⟩ := cacheScan_negative_slot c addresses rs 0
        (List.replicate addresses.length none) [] [] g1 misses offsets i
        (compressorId :: tail) hscan (by simpa using hres) hpv
      rw [Nat.zero_add] at hslot hmem
      refine ⟨fun hin => absurd (hmem.mp hin) (List.not_mem_nil i), ?_⟩
      rw [hslot, List.getElem?_eq_getElem (by simpa using hilt)]
      simp
    refine ⟨hscanfacts, ?_⟩
    intro out hout
    simp only [cacheGeocodeAddresses] at hout
    rw [if_neg (by
      intro hcon
      rw [List.isEmpty_iff, List.map_eq_nil_iff] at hcon
      subst hcon
      simp at hilt)] at hout
    simp only [hget] at hout
    cases hscan : cacheScan c addresses rs 0
        (List.replicate addresses.length none) [] [] with
    | error e' =>
      simp only [hscan] at hout
      exact Except.noConfusion hout
    | ok st =>
      obtain ⟨g1, misses, offsets⟩ := st
      simp only [hscan] at hout
      obtain ⟨hnotin, hslot⟩ := hscanfacts g1 misses offsets hscan
      have hkeylen : i < (addresses.map
          (fun addr => cache_key c.inner_cache_prefix addr)).length := by
        rw [List.length_map]
        exact hilt
      by_cases hcond : (!misses.isEmpty && !c.cache_hits_only) = true
      · rw [if_pos hcond] at hout
        cases hin : c.inner.geocode_addresses misses with
        | error err =>
          simp only [hin] at hout
          exact Except.noConfusion hout
        | ok retries =>
          simp only [hin] at hout
          cases hwb : cacheWriteback
              (addresses.map
                (fun addr => cache_key c.inner_cache_prefix addr))
              (offsets.zip retries) g1 with
          | error e' =>
            simp only [hwb] at hout
            exact Except.noConfusion hout
          | ok sg =>
            obtain ⟨sets, g2⟩ := sg
            simp only [hwb] at hout
            cases hset : c.key_value_store.pipelinedSet sets with
            | error es =>
              simp only [hset] at hout
              exact Except.noConfusion hout
            | ok u =>
              simp only [hset] at hout
              obtain ⟨-, hg2⟩ := cacheWriteback_ok_eq _ _ _ _ _ hwb
              have hg2slot : g2[i]? = some none := by
                rw [hg2, foldl_setp_getElem?_not_mem _ _ i
                  (fun p hp hpe => hnotin (hpe ▸ (List.of_mem_zip hp).1))]
                exact hslot
              rw [← Except.ok.inj hout]
              exact cacheFinish_none c _ g2 i hg2slot hkeylen
      · rw [if_neg hcond] at hout
        rw [← Except.ok.inj hout]
        exact cacheFinish_none c _ g1 i hslot hkeylen
  · intro vs hdec hvlen hnul g1 misses offsets hscan
    have hpv : processCachedValue c (compressorId :: tail) = .ok .miss := by
      simp only [processCachedValue, List.tail_cons] at *
      rw [if_neg (by simp), hdec]
      simp only [classifyDecoded]
      rw [if_neg (by omega), if_pos hnul]
    obtain ⟨k0, a0, hk0, hm0, ha0⟩ := cacheScan_miss_slot c addresses rs 0
      (List.replicate addresses.length none) [] [] g1 misses offsets i
      (some (compressorId :: tail)) hscan rfl (by simpa using hres)
      (Or.inr ⟨_, rfl, hpv⟩)
    rw [Nat.zero_add] at ha0
    rw [Nat.zero_add] at hk0
    refine ⟨⟨k0, a0, hk0, hm0, ha0⟩, ?_⟩
    intro retries sets g2 hin hretlen hwb k hk
    obtain ⟨hsets, -⟩ := cacheWriteback_ok_eq _ _ _ _ _ hwb
    have hklt : k < offsets.length := by
      by_contra hcon
      rw [List.getElem?_eq_none_iff.mpr (by omega)] at hk
      exact Option.noConfusion hk
    obtain ⟨-, -, extraO, extraM, ho, hm, hom, -, -⟩ :=
      cacheScan_props c addresses rs 0
        (List.replicate addresses.length none) [] [] g1 misses offsets hscan
    have hmisslen : misses.length = offsets.length := by
      rw [ho, hm]
      simp [hom]
    have hkret : k < retries.length := by
      rw [hretlen, hmisslen]
      exact hklt
    have hkzip : k < (offsets.zip retries).length := by
      rw [List.length_zip]
      omega
    rw [hsets, List.getElem?_map, List.getElem?_eq_getElem hkzip,
      List.getElem_zip]
    have hoff : offsets[k] = i := by
      rw [List.getElem?_eq_getElem hklt] at hk
      exact Option.some_inj.mp hk
    have hretk : retries[k] = retries.getD k none := by
      rw [List.getD_eq_getElem?_getD, List.getElem?_eq_getElem hkret]
      rfl
    rw [hoff, hretk]
    rfl

/-- Witness for C6: with slot 0 caching a negative (`[78, 0]`, i.e. the
compressor id and an encoded `None`) and slot 1 caching a NUL-containing
value (`[78, 1, 1, 1, 0]`), the call leaves slot 0 `none` while slot 1 is
re-geocoded by the inner geocoder, and the NUL slot's index and address
appear in the miss offsets and forwarded batch. -/
theorem cache_negative_and_nul_cached_values_witness :
    cacheGeocodeAddresses
        ⟨⟨fun _ => .ok [some [78, 0], some [78, 1, 1, 1, 0]],
            fun _ => .ok ()⟩,
          ⟨"sm", "strict:us-standard-cloud", ["v"],
            fun xs => .ok (xs.map (fun _ => some ⟨["42"]⟩))⟩,
          "sm:abcd", false, false⟩
        [⟨"1 main st", none, none, none⟩, ⟨"2 oak ave", none, none, none⟩] =
      .ok [none, some ⟨["42"]⟩] ∧
    ([none, some ⟨["42"]⟩] : List (Option Geocoded))[0]? = some none ∧
    ∃ (k : Nat) (a : Address), ([1] : List Nat)[k]? = some 1 ∧
      ([⟨"2 oak ave", none, none, none⟩] : List Address)[k]? = some a ∧
      ([⟨"1 main st", none, none, none⟩,
        ⟨"2 oak ave", none, none, none⟩] : List Address).get? 1 = some a := by
  have happ1 := (cache_negative_and_nul_cached_values
    ⟨⟨fun _ => .ok [some [78, 0], some [78, 1, 1, 1, 0]], fun _ => .ok ()⟩,
      ⟨"sm", "strict:us-standard-cloud", ["v"],
        fun xs => .ok (xs.map (fun _ => some ⟨["42"]⟩))⟩,
      "sm:abcd", false, false⟩
    [⟨"1 main st", none, none, none⟩, ⟨"2 oak ave", none, none, none⟩]
    [some [78, 0], some [78, 1, 1, 1, 0]] 0 [78, 0]
    rfl rfl rfl rfl).1 rfl
  have happ2 := ((cache_negative_and_nul_cached_values
    ⟨⟨fun _ => .ok [some [78, 0], some [78, 1, 1, 1, 0]], fun _ => .ok ()⟩,
      ⟨"sm", "strict:us-standard-cloud", ["v"],
        fun xs => .ok (xs.map (fun _ => some ⟨["42"]⟩))⟩,
      "sm:abcd", false, false⟩
    [⟨"1 main st", none, none, none⟩, ⟨"2 oak ave", none, none, none⟩]
    [some [78, 0], some [78, 1, 1, 1, 0]] 1 [78, 1, 1, 1, 0]
    rfl rfl rfl rfl).2 [String.mk [Char.ofNat 0]]
    rfl rfl rfl [none, none] [⟨"2 oak ave", none, none, none⟩] [1] rfl).1
  exact ⟨rfl, happ1.2 _ rfl, happ2⟩

/-! ### Theorems about the invalid-record skipper -/

/-- Filtering an enumeration and keeping the values recovers a plain
filter of the underlying list. -/
theorem enumFrom_filter_map_snd (q : α → Bool) :
    ∀ (n : Nat) (l : List α),
      ((List.enumFrom n l).filter (fun p => q p.2)).map Prod.snd =
        l.filter q := by
  intro n l
  induction l generalizing n with
  | nil => rfl
  | cons x xs ih =>
    rw [List.enumFrom_cons, List.filter_cons, List.filter_cons]
    by_cases hx : q x
    · simp only [hx, if_true, List.map_cons]
      rw [ih]
    · simp only [hx, if_false, Bool.false_eq_true]
      exact ih (n + 1)

/-- When the inner geocoder returns no more results than addresses were
forwarded and all recorded indices are in range, the rebuild loop succeeds
and equals the corresponding assignment fold. -/
theorem skipperRebuild_ok :
    ∀ (geos : List (Option Geocoded)) (orig : List Nat)
      (res : List (Option Geocoded)),
      geos.length ≤ orig.length →
      (∀ oi ∈ orig, oi < res.length) →
      skipperRebuild orig geos res =
        .ok ((orig.zip geos).foldl (fun r p => r.set p.1 p.2) res) := by
  intro geos
  induction geos with
  | nil =>
    intro orig res _ _
    cases orig <;> rfl
  | cons g gs ih =>
    intro orig res hle hin
    cases orig with
    | nil => simp at hle
    | cons oi ois =>
      show (if oi < res.length then skipperRebuild ois gs (res.set oi g)
        else .error (.panicked "index out of bounds")) = _
      rw [if_pos (hin oi (List.mem_cons_self oi ois))]
      rw [ih ois (res.set oi g) (by simpa using Nat.le_of_succ_le_succ hle)
        (fun oi' hoi' => by
          rw [List.length_set]
          exact hin oi' (List.mem_cons_of_mem oi hoi'))]
      rfl

/-- C8: `InvalidRecordSkipper::geocode_addresses` forwards exactly the
addresses with a non-empty trimmed street, in order; on success it returns
a list of the original length with `none` at every skipped slot and the
inner result at every forwarded slot; and the wrapper passes `tag`,
`configuration_key` and `column_names` through unchanged. -/
theorem invalid_record_skipper_behavior (inner : MGeocoder)
    (addresses : List Address) (res : List (Option Geocoded))
    (hinner : inner.geocode_addresses
        ((addresses.enum.filter (fun p => p.2.isValid)).map Prod.snd) =
        .ok res)
    (hlen : res.length =
        (addresses.enum.filter (fun p => p.2.isValid)).length) :
    ((addresses.enum.filter (fun p => p.2.isValid)).map Prod.snd =
        addresses.filter Address.isValid) ∧
      (invalidRecordSkipper inner).tag = inner.tag ∧
      (invalidRecordSkipper inner).configuration_key =
        inner.configuration_key ∧
      (invalidRecordSkipper inner).column_names = inner.column_names ∧
      ∃ out, (invalidRecordSkipper inner).geocode_addresses addresses =
          .ok out ∧
        out.length = addresses.length ∧
        (∀ i, (hi : i < addresses.length) → addresses[i].isValid = false →
          out[i]? = some none) ∧
        (∀ j, (hj : j <
            (addresses.enum.filter (fun p => p.2.isValid)).length) →
          out[((addresses.enum.filter (fun p => p.2.isValid))[j]).1]? =
            res[j]?) := by
  set pairs := addresses.enum.filter (fun p => p.2.isValid) with hpairs
  have hmemenum : ∀ p ∈ pairs, addresses[p.1]? = some p.2 ∧
      p.2.isValid = true := by
    intro p hp
    have hp' := List.mem_filter.mp hp
    have := List.mk_mem_enumFrom_iff_le_and_getElem?_sub.mp
      (show (p.1, p.2) ∈ addresses.enumFrom 0 from hp'.1)
    simpa using ⟨this.2, hp'.2⟩
  have horig_lt : ∀ oi ∈ pairs.map Prod.fst, oi < addresses.length := by
    intro oi hoi
    obtain ⟨p, hp, rfl⟩ := List.mem_map.mp hoi
    have := (hmemenum p hp).1
    exact (List.getElem?_eq_some_iff.mp this).choose
  have horig_nodup : (pairs.map Prod.fst).Nodup := by
    have hsub : List.Sublist (pairs.map Prod.fst)
        (addresses.enum.map Prod.fst) :=
      (List.filter_sublist _).map Prod.fst
    rw [List.enum_eq_enumFrom, List.enumFrom_map_fst] at hsub
    exact hsub.nodup (List.nodup_range' 0 addresses.length)
  have horig_len : (pairs.map Prod.fst).length = pairs.length :=
    List.length_map _ _
  refine ⟨?_, rfl, rfl, rfl, ?_⟩
  · rw [hpairs, List.enum_eq_enumFrom]
    exact enumFrom_filter_map_snd Address.isValid 0 addresses
  · have hrun : (invalidRecordSkipper inner).geocode_addresses addresses =
        skipperRebuild (pairs.map Prod.fst) res
          (List.replicate addresses.length none) := by
      show invalidRecordSkipperGeocode inner addresses = _
      unfold invalidRecordSkipperGeocode
      simp only
      rw [← hpairs, hinner]
    have hreb := skipperRebuild_ok res (pairs.map Prod.fst)
      (List.replicate addresses.length none)
      (by rw [horig_len, hlen])
      (fun oi hoi => by
        rw [List.length_replicate]
        exact horig_lt oi hoi)
    refine ⟨_, hrun.trans hreb, ?_, ?_, ?_⟩
    · rw [foldl_setp_length, List.length_replicate]
    · intro i hi hinvalid
      rw [foldl_setp_getElem?_not_mem _ _ i ?_]
      · rw [List.getElem?_replicate, if_pos hi]
      · intro p hp hpe
        have hfst := (List.of_mem_zip hp).1
        obtain ⟨q, hq, hqe⟩ := List.mem_map.mp hfst
        obtain ⟨hq1, hq2⟩ := hmemenum q hq
        rw [hqe, hpe, List.getElem?_eq_getElem hi] at hq1
        rw [← Option.some_inj.mp hq1] at hq2
        rw [hq2] at hinvalid
        cases hinvalid
    · intro j hj
      have hjz : j < ((pairs.map Prod.fst).zip res).length := by
        rw [List.length_zip, horig_len, hlen]
        exact Nat.lt_min.mpr ⟨hj, hj⟩
      have hjr : j < res.length := by rw [hlen]; exact hj
      have hnth := foldl_setp_getElem?_nth ((pairs.map Prod.fst).zip res)
        (List.replicate addresses.length none)
        (by
          rw [List.map_fst_zip _ _ (by rw [horig_len, hlen])]
          exact horig_nodup)
        (fun p hp => by
          rw [List.length_replicate]
          exact horig_lt p.1 (List.of_mem_zip hp).1)
        j hjz
      rw [List.getElem_zip] at hnth
      simp only [List.getElem_map] at hnth
      rw [hnth, List.getElem?_eq_getElem hjr]

/-- Witness for C8: one valid and one whitespace-street address; the
skipper succeeds, keeps the batch length, and leaves `none` at the
skipped slot. -/
theorem invalid_record_skipper_behavior_witness :
    ∃ out,
      (invalidRecordSkipper
          ⟨"sm", "strict:us-standard-cloud", ["street_out"],
            fun xs =>
              .ok (xs.map (fun a => some ⟨[a.street]⟩))⟩).geocode_addresses
          [⟨"1 Main St", none, none, none⟩, ⟨"   ", none, none, none⟩] =
        .ok out ∧
      out.length = 2 ∧ out[1]? = some none := by
  obtain ⟨-, -, -, -, out, hout, hlen, hskip, -⟩ :=
    invalid_record_skipper_behavior
      ⟨"sm", "strict:us-standard-cloud", ["street_out"],
        fun xs => .ok (xs.map (fun a => some ⟨[a.street]⟩))⟩
      [⟨"1 Main St", none, none, none⟩, ⟨"   ", none, none, none⟩]
      [some ⟨["1 Main St"]⟩] (by rfl) (by rfl)
  exact ⟨out, hout, by simpa using hlen, hskip 1 (by decide) (by decide)⟩

/-! ### Theorems about the row pipeline -/

/-- The chunks the reader emits carry exactly the transformed input rows,
in order. -/
theorem readerRowsGo_flatten (cs : Nat) (tf : Row → Row) :
    ∀ (l buf : List Row) (sent : Bool),
      (readerRowsGo cs tf l buf sent).flatten = buf ++ l.map tf := by
  intro l
  induction l with
  | nil =>
    intro buf sent
    cases sent with
    | false => simp [readerRowsGo]
    | true =>
      cases buf with
      | nil => simp [readerRowsGo]
      | cons b bs => simp [readerRowsGo]
  | cons r rest ih =>
    intro buf sent
    simp only [readerRowsGo]
    by_cases hc : cs ≤ (buf ++ [tf r]).length
    · rw [if_pos hc]
      simp only [List.flatten_cons, ih [] true]
      simp
    · rw [if_neg hc, ih (buf ++ [tf r]) sent]
      simp

/-- When at least one row reaches the reader loop (or a chunk was already
sent), every chunk the reader emits is nonempty. -/
theorem readerRowsGo_nonempty (cs : Nat) (tf : Row → Row) :
    ∀ (l buf : List Row) (sent : Bool),
      (sent = false → buf ++ l ≠ []) →
      ∀ c ∈ readerRowsGo cs tf l buf sent, c ≠ [] := by
  intro l
  induction l with
  | nil =>
    intro buf sent hne c hc
    cases sent with
    | false =>
      simp only [readerRowsGo, Bool.not_false, Bool.true_or, if_pos,
        List.mem_singleton] at hc
      subst hc
      simpa using hne rfl
    | true =>
      cases buf with
      | nil => simp [readerRowsGo] at hc
      | cons b bs =>
        simp only [readerRowsGo] at hc
        simp at hc
        subst hc
        simp
  | cons r rest ih =>
    intro buf sent hne c hc
    simp only [readerRowsGo] at hc
    by_cases hcz : cs ≤ (buf ++ [tf r]).length
    · rw [if_pos hcz] at hc
      rcases List.mem_cons.mp hc with h | h
      · subst h; simp
      · exact ih [] true (fun hf => nomatch hf) c h
    · rw [if_neg hcz] at hc
      exact ih (buf ++ [tf r]) sent (fun _ => by simp) c hc

/-- Every prefix produced by `spec.prefixes()` has an entry in the spec
(the `.expect("should always have prefix")` cannot fire). -/
theorem specGet_of_mem_prefixes (spec : AddressColumnSpec) (pre : String)
    (h : pre ∈ specPrefixes spec) : ∃ keys, specGet spec pre = some keys := by
  have hmem : pre ∈ spec.map Prod.fst :=
    (List.perm_insertionSort strLeR (spec.map Prod.fst)).mem_iff.mp h
  obtain ⟨p, hp, hfst⟩ := List.mem_map.mp hmem
  have hsome : (spec.find? (fun q => q.1 == pre)).isSome := by
    rw [List.find?_isSome]
    exact ⟨p, hp, by simp [hfst]⟩
  obtain ⟨q, hq⟩ := Option.isSome_iff_exists.mp hsome
  exact ⟨q.2, by simp [specGet, hq]⟩

/-- When every row extracts successfully, the per-prefix extraction loop
returns one address per row. -/
theorem extractAddressesFor_ok (keys : AddressColumnKeys) :
    ∀ rows : List Row,
      (∀ r ∈ rows, ∃ a, keys.extractAddressFromRecord r = .ok a) →
      ∃ as1, extractAddressesFor keys rows = .ok as1 ∧
        as1.length = rows.length := by
  intro rows
  induction rows with
  | nil => intro _; exact ⟨[], rfl, rfl⟩
  | cons r rs ih =>
    intro hok
    obtain ⟨a, ha⟩ := hok r (by simp)
    obtain ⟨as1, has1, hlen⟩ := ih (fun x hx => hok x (by simp [hx]))
    exact ⟨a :: as1, by simp [extractAddressesFor, ha, has1],
      by simp [hlen]⟩

/-- The address-building phase of `geocode_chunk` produces
`|prefixes| * |rows|` addresses when every lookup and extraction
succeeds. -/
theorem extractChunkAddresses_ok (spec : AddressColumnSpec) :
    ∀ (pres : List String) (rows : List Row),
      (∀ pre ∈ pres, ∃ keys, specGet spec pre = some keys) →
      (∀ pre keys, specGet spec pre = some keys →
        ∀ r ∈ rows, ∃ a, keys.extractAddressFromRecord r = .ok a) →
      ∃ addrs, extractChunkAddresses spec pres rows = .ok addrs ∧
        addrs.length = pres.length * rows.length := by
  intro pres
  induction pres with
  | nil => intro rows _ _; exact ⟨[], rfl, by simp⟩
  | cons pre ps ih =>
    intro rows hget hex
    obtain ⟨keys, hkeys⟩ := hget pre (by simp)
    obtain ⟨as1, has1, hlen1⟩ :=
      extractAddressesFor_ok keys rows (hex pre keys hkeys)
    obtain ⟨as2, has2, hlen2⟩ := ih rows (fun p hp => hget p (by simp [hp])) hex
    refine ⟨as1 ++ as2, ?_, ?_⟩
    · simp [extractChunkAddresses, hkeys, has1, has2]
    · simp only [List.length_append, List.length_cons, hlen1, hlen2,
        Nat.succ_mul]
      omega

/-- With no rows, the address-building phase succeeds with no
addresses. -/
theorem extractChunkAddresses_nil_rows (spec : AddressColumnSpec) :
    ∀ pres : List String,
      (∀ pre ∈ pres, ∃ keys, specGet spec pre = some keys) →
      extractChunkAddresses spec pres [] = .ok [] := by
  intro pres
  induction pres with
  | nil => intro _; rfl
  | cons pre ps ih =>
    intro h
    obtain ⟨keys, hkeys⟩ := h pre (by simp)
    simp [extractChunkAddresses, hkeys, extractAddressesFor,
      ih (fun p hp => h p (by simp [hp]))]

/-- If the very first attempt succeeds, the retry loop returns its
result. -/
theorem retryLoop_first_ok (f : Nat → Except GeoErr α) (m : Nat) (a : α)
    (h : f 0 = .ok a) : (retryLoop f m).1 = .ok a := by
  unfold retryLoop retryLoopGo
  rw [h]

/-- With a positive chunk size dividing the slice length, every group
`slice::chunks` yields has exactly the chunk size. -/
theorem sliceChunksGo_lengths (k : Nat) (hk : 0 < k) :
    ∀ (l acc : List α), acc.length < k → k ∣ acc.length + l.length →
      ∀ g ∈ sliceChunksGo k l acc, g.length = k := by
  intro l
  induction l with
  | nil =>
    intro acc hlt hdvd g hg
    have hz : acc.length = 0 :=
      Nat.eq_zero_of_dvd_of_lt (by simpa using hdvd) hlt
    rw [List.length_eq_zero] at hz
    subst hz
    simp [sliceChunksGo] at hg
  | cons x xs ih =>
    intro acc hlt hdvd g hg
    simp only [sliceChunksGo] at hg
    by_cases hc : k ≤ (x :: acc).length
    · rw [if_pos hc] at hg
      have hkacc : acc.length + 1 = k := by
        simp only [List.length_cons] at hc
        omega
      rcases List.mem_cons.mp hg with h | h
      · subst h; simp [hkacc]
      · refine ih [] (by simpa using hk) ?_ g h
        have hd2 : k ∣ k + xs.length := by
          have heq : acc.length + (x :: xs).length = k + xs.length := by
            simp only [List.length_cons]
            omega
          rwa [heq] at hdvd
        simpa using (Nat.dvd_add_right dvd_rfl).mp hd2
    · rw [if_neg hc] at hg
      refine ih (x :: acc) ?_ ?_ g hg
      · simp only [List.length_cons] at hc ⊢
        omega
      · have heq : (x :: acc).length + xs.length =
            acc.length + (x :: xs).length := by
          simp only [List.length_cons]
          omega
        rwa [heq]

/-- The row-extension relation is transitive. -/
theorem forall2_ext_trans :
    ∀ (l1 l2 l3 : List Row),
      List.Forall₂ (fun r r2 => ∃ ext : Row, r2 = r ++ ext) l1 l2 →
      List.Forall₂ (fun r r2 => ∃ ext : Row, r2 = r ++ ext) l2 l3 →
      List.Forall₂ (fun r r2 => ∃ ext : Row, r2 = r ++ ext) l1 l3 := by
  intro l1 l2 l3 h12
  induction h12 generalizing l3 with
  | nil => intro h23; cases h23; exact .nil
  | cons h hs ih =>
    intro h23
    cases h23 with
    | cons h2 hs2 =>
      obtain ⟨e1, he1⟩ := h
      obtain ⟨e2, he2⟩ := h2
      exact .cons ⟨e1 ++ e2, by rw [he2, he1, List.append_assoc]⟩ (ih _ hs2)

/-- One pass of the chunk-merge loop only appends columns to each row. -/
theorem zip_add_columns_forall2 (mg : MGeocoder) :
    ∀ (g : List (Option Geocoded)) (rows : List Row),
      g.length = rows.length →
      List.Forall₂ (fun r r2 => ∃ ext : Row, r2 = r ++ ext) rows
        ((g.zip rows).map fun p => addResponseColumns mg p.1 p.2) := by
  intro g
  induction g with
  | nil =>
    intro rows hlen
    rw [List.length_eq_zero.mp hlen.symm]
    exact .nil
  | cons o g ih =>
    intro rows hlen
    cases rows with
    | nil => cases hlen
    | cons r rs =>
      refine .cons ?_ (ih rs (by simpa using hlen))
      cases o with
      | some geo =>
        exact ⟨geo.column_values, by simp [addResponseColumns,
          addValueColumnsToRow]⟩
      | none =>
        exact ⟨List.replicate mg.column_names.length "", by
          simp [addResponseColumns, addEmptyColumnsToRow]⟩

/-- The chunk-merge loop succeeds when every group matches the row count,
and it only appends columns to each row. -/
theorem applyGroups_ok (mg : MGeocoder) :
    ∀ (gs : List (List (Option Geocoded))) (rows : List Row),
      (∀ g ∈ gs, g.length = rows.length) →
      ∃ out, applyGroups mg gs rows = .ok out ∧
        List.Forall₂ (fun r r2 => ∃ ext : Row, r2 = r ++ ext) rows out := by
  intro gs
  induction gs with
  | nil =>
    intro rows _
    exact ⟨rows, rfl,
      List.forall₂_same.mpr (fun x _ => ⟨[], by simp⟩)⟩
  | cons g gs ih =>
    intro rows hlen
    have hg : g.length = rows.length := hlen g (by simp)
    obtain ⟨out, hout, hfa⟩ :=
      ih ((g.zip rows).map fun p => addResponseColumns mg p.1 p.2)
        (fun g2 hg2 => by
          rw [hlen g2 (by simp [hg2])]
          simp [List.length_zip, hg])
    refine ⟨out, ?_, forall2_ext_trans _ _ _
      (zip_add_columns_forall2 mg g rows hg) hfa⟩
    simp [applyGroups, hg, hout]

/-- On a nonempty chunk whose rows all extract and with a geocoder that
returns one result per address, `geocode_chunk` succeeds, and each output
row is the corresponding input row with columns appended. -/
theorem geocodeChunk_ok (mg : MGeocoder) (m : Nat)
    (spec : AddressColumnSpec) (rows : List Row) (hrows : rows ≠ [])
    (hok : ∀ addrs : List Address, ∃ gs,
      mg.geocode_addresses addrs = .ok gs ∧ gs.length = addrs.length)
    (hex : ∀ pre keys, specGet spec pre = some keys →
      ∀ r ∈ rows, ∃ a, keys.extractAddressFromRecord r = .ok a) :
    ∃ out, geocodeChunk mg m spec rows = .ok out ∧
      List.Forall₂ (fun r r2 => ∃ ext : Row, r2 = r ++ ext) rows out := by
  obtain ⟨addrs, haddrs, hlen⟩ :=
    extractChunkAddresses_ok spec (specPrefixes spec) rows
      (fun pre hp => specGet_of_mem_prefixes spec pre hp) hex
  obtain ⟨gs, hgs, hglen⟩ := hok addrs
  have hretry :=
    retryLoop_first_ok (fun _ => mg.geocode_addresses addrs) m gs hgs
  have hRpos : 0 < rows.length := by
    cases rows with
    | nil => cases hrows rfl
    | cons r rs => simp
  have hslice : sliceChunks rows.length gs =
      .ok (sliceChunksGo rows.length gs []) := by
    simp [sliceChunks, Nat.pos_iff_ne_zero.mp hRpos]
  have hgrouplens : ∀ g ∈ sliceChunksGo rows.length gs [],
      g.length = rows.length := by
    refine sliceChunksGo_lengths rows.length hRpos gs [] (by simpa using hRpos) ?_
    simp only [List.length_nil, Nat.zero_add, hglen, hlen]
    exact dvd_mul_left _ _
  obtain ⟨out, hout, hfa⟩ :=
    applyGroups_ok mg (sliceChunksGo rows.length gs []) rows hgrouplens
  refine ⟨out, ?_, hfa⟩
  simp [geocodeChunk, haddrs, hretry, hslice, hout]

/-- On the empty chunk sent for a header-only input, `geocode_chunk`
reaches `geocoded.chunks(0)` and panics, for every geocoder whose call on
the empty batch succeeds. -/
theorem geocodeChunk_nil_panics (mg : MGeocoder) (m : Nat)
    (spec : AddressColumnSpec)
    (hok0 : ∃ gs, mg.geocode_addresses [] = .ok gs) :
    geocodeChunk mg m spec [] =
      .error (.panicked "chunk size must be non-zero") := by
  obtain ⟨gs, hgs⟩ := hok0
  have hext := extractChunkAddresses_nil_rows spec (specPrefixes spec)
    (fun pre hp => specGet_of_mem_prefixes spec pre hp)
  have hretry := retryLoop_first_ok (fun _ => mg.geocode_addresses []) m gs hgs
  simp [geocodeChunk, hext, hretry, sliceChunks]

/-- The geocoding stage maps `geocode_chunk` over the chunk messages in
order and passes `EndOfStream` through. -/
theorem geocodeStage_chunks (mg : MGeocoder) (m : Nat)
    (spec : AddressColumnSpec) :
    ∀ cs : List (List Row),
      (∀ c ∈ cs, ∃ out, geocodeChunk mg m spec c = .ok out ∧
        List.Forall₂ (fun r r2 => ∃ ext : Row, r2 = r ++ ext) c out) →
      ∃ cs2,
        geocodeStage mg m spec
            (cs.map Message.chunk ++ [Message.endOfStream]) =
          .ok (cs2.map Message.chunk ++ [Message.endOfStream]) ∧
        List.Forall₂
          (List.Forall₂ (fun r r2 => ∃ ext : Row, r2 = r ++ ext)) cs cs2 := by
  intro cs
  induction cs with
  | nil => intro _; exact ⟨[], rfl, .nil⟩
  | cons c cs ih =>
    intro h
    obtain ⟨out, hout, hfa⟩ := h c (by simp)
    obtain ⟨cs2, hcs2, hfa2⟩ := ih (fun c2 hc2 => h c2 (by simp [hc2]))
    refine ⟨out :: cs2, ?_, .cons hfa hfa2⟩
    simp [geocodeStage, geocodeMessage, hout, hcs2]

/-- Once the header is written, the writer appends every chunk's rows in
order and stops at `EndOfStream`. -/
theorem writerOutput_written (hdr : Row) :
    ∀ (cs : List (List Row)) (acc : List Row),
      writerOutput hdr (cs.map Message.chunk ++ [Message.endOfStream]) true
          acc =
        .ok (acc ++ cs.flatten) := by
  intro cs
  induction cs with
  | nil => intro acc; simp [writerOutput]
  | cons c cs ih =>
    intro acc
    simp [writerOutput, ih]

/-- On a stream with at least one chunk, the writer emits the header row
followed by every chunk's rows, in order. -/
theorem writerOutput_cons (hdr : Row) (cs : List (List Row))
    (h : cs ≠ []) :
    writerOutput hdr (cs.map Message.chunk ++ [Message.endOfStream]) false
        [] =
      .ok (hdr :: cs.flatten) := by
  obtain ⟨c, cs2, rfl⟩ := List.exists_cons_of_ne_nil h
  simp [writerOutput, writerOutput_written]

/-- Flattening respects the pointwise row-extension relation. -/
theorem forall2_ext_flatten :
    ∀ (cs cs2 : List (List Row)),
      List.Forall₂
        (List.Forall₂ (fun r r2 => ∃ ext : Row, r2 = r ++ ext)) cs cs2 →
      List.Forall₂ (fun r r2 => ∃ ext : Row, r2 = r ++ ext)
        cs.flatten cs2.flatten := by
  intro cs cs2 h
  induction h with
  | nil => exact .nil
  | cons h hs ih =>
    simp only [List.flatten_cons]
    exact List.rel_append h ih

/-- C1: the claim fails at N = 0. For a header-only input the reader does
send one empty chunk to carry the headers, but `geocode_chunk` then calls
`geocoded.chunks(chunk.rows.len())` with `chunk.rows.len() = 0`, and
Rust's `slice::chunks` panics on a zero chunk size — even on an empty
slice — so the pipeline panics instead of completing and writing the
output header row. For inputs with at least one data row the claimed
behavior holds: when every address extracts and the geocoder returns one
result per address, the output is the output header row followed by
exactly `N` rows, the `j`-th of which is (the transformed) input row `j`
with geocode columns appended, in input order. -/
theorem pipeline_row_count_and_order (mg : MGeocoder) (maxRetries : Nat)
    (spec : AddressColumnSpec) (out_headers : Row) (tf : Row → Row)
    (in_rows : List Row)
    (hok : ∀ addrs : List Address, ∃ gs,
      mg.geocode_addresses addrs = .ok gs ∧ gs.length = addrs.length)
    (hex : ∀ pre keys, specGet spec pre = some keys →
      ∀ r ∈ in_rows, ∃ a, keys.extractAddressFromRecord (tf r) = .ok a) :
    (in_rows = [] →
      runPipelineRows mg maxRetries spec out_headers tf in_rows =
        .error (.panicked "chunk size must be non-zero")) ∧
    (in_rows ≠ [] →
      ∃ finalRows : List Row,
        runPipelineRows mg maxRetries spec out_headers tf in_rows =
          .ok (out_headers :: finalRows) ∧
        finalRows.length = in_rows.length ∧
        List.Forall₂ (fun r r2 => ∃ ext : Row, r2 = tf r ++ ext)
          in_rows finalRows) := by
  constructor
  · rintro rfl
    obtain ⟨gs0, hgs0, -⟩ := hok []
    have hchunk := geocodeChunk_nil_panics mg maxRetries spec ⟨gs0, hgs0⟩
    simp [runPipelineRows, readerMessages, readerRowsGo, geocodeStage,
      geocodeMessage, hchunk]
  · intro hne
    have hflat :
        (readerRowsGo (chunkSizeOf spec) tf in_rows [] false).flatten =
          in_rows.map tf :=
      readerRowsGo_flatten (chunkSizeOf spec) tf in_rows [] false
    have hnonempty : ∀ c ∈ readerRowsGo (chunkSizeOf spec) tf in_rows []
        false, c ≠ [] :=
      readerRowsGo_nonempty (chunkSizeOf spec) tf in_rows [] false
        (fun _ => by simpa using hne)
    have hchunks : ∀ c ∈ readerRowsGo (chunkSizeOf spec) tf in_rows []
        false,
        ∃ out, geocodeChunk mg maxRetries spec c = .ok out ∧
          List.Forall₂ (fun r r2 => ∃ ext : Row, r2 = r ++ ext) c out := by
      intro c hc
      refine geocodeChunk_ok mg maxRetries spec c (hnonempty c hc) hok ?_
      intro pre keys hkeys r hr
      have hrmem : r ∈ in_rows.map tf := by
        rw [← hflat]
        exact List.mem_flatten.mpr ⟨c, hc, hr⟩
      obtain ⟨r0, hr0, rfl⟩ := List.mem_map.mp hrmem
      exact hex pre keys hkeys r0 hr0
    obtain ⟨cs2, hstage, hfa2⟩ :=
      geocodeStage_chunks mg maxRetries spec _ hchunks
    have hchne : readerRowsGo (chunkSizeOf spec) tf in_rows [] false ≠ []
        := by
      intro h0
      rw [h0] at hflat
      simp only [List.flatten_nil] at hflat
      exact hne (by simpa using hflat.symm)
    have hcs2ne : cs2 ≠ [] := by
      intro h0
      apply hchne
      have hl := hfa2.length_eq
      rw [h0] at hl
      exact List.length_eq_zero.mp (by simpa using hl)
    refine ⟨cs2.flatten, ?_, ?_, ?_⟩
    · simp only [runPipelineRows, readerMessages, hstage]
      exact writerOutput_cons out_headers cs2 hcs2ne
    · have h1 := (forall2_ext_flatten _ _ hfa2).length_eq
      rw [hflat] at h1
      simpa using h1.symm
    · have h2 := forall2_ext_flatten _ _ hfa2
      rw [hflat] at h2
      exact List.forall₂_map_left_iff.mp h2

/-- Witness for C1's failing input: a header-only CSV (zero data rows)
with a one-prefix spec and a geocoder that answers every batch; the
pipeline panics in `geocode_chunk` instead of emitting the header row. -/
theorem pipeline_row_count_and_order_witness :
    runPipelineRows
        ⟨"sm", "strict:us-standard-cloud", ["x"],
          fun addrs => .ok (addrs.map fun _ => none)⟩ 4
        [("p", ⟨.key 0, none, none, none⟩)] ["h", "p_x"] id [] =
      .error (.panicked "chunk size must be non-zero") := by
  exact (pipeline_row_count_and_order
    ⟨"sm", "strict:us-standard-cloud", ["x"],
      fun addrs => .ok (addrs.map fun _ => none)⟩ 4
    [("p", ⟨.key 0, none, none, none⟩)] ["h", "p_x"] id []
    (fun addrs => ⟨addrs.map fun _ => none, rfl, by simp⟩)
    (fun pre keys hk r hr => absurd hr (by simp))).1 rfl

end GeocodeCsv
